import Mathlib

/-!
Verification of the SemVerGo version-decision engine (src/main.go) against its
natural-language specification.  Commit messages, tags and templates are
modelled as lists of characters; the Go functions `validateCommitMessage`,
`determineBumpType`, `generateReleaseNotes` (its pure categorisation and
rendering), `calculateNewVersion`, `shouldSkipCI` and the tag-format
substitution in `main` are translated below.  Operations of the external
Masterminds semver library (which is not part of this repository's source)
are modelled from the specification and marked as such.
-/

namespace SemVerGo

/-- Character list of a string literal; all modelling works on `List Char`. -/
def chars (s : String) : List Char := s.data

/-- Unicode white space as used by Go's `unicode.IsSpace` / `strings.TrimSpace`:
the ASCII spaces, NEL, NBSP and the Unicode space separators. -/
def isGoSpace (c : Char) : Bool :=
  c = ' ' || c = '\t' || c = '\n' || c = (Char.ofNat 11) || c = (Char.ofNat 12) ||
  c = '\r' || c = (Char.ofNat 0x85) || c = (Char.ofNat 0xA0) ||
  c = (Char.ofNat 0x1680) || (0x2000 ≤ c.toNat && c.toNat ≤ 0x200A) ||
  c = (Char.ofNat 0x2028) || c = (Char.ofNat 0x2029) ||
  c = (Char.ofNat 0x202F) || c = (Char.ofNat 0x205F) || c = (Char.ofNat 0x3000)

/-- Go `strings.TrimSpace`: drop white space from both ends. -/
def goTrimSpace (s : List Char) : List Char :=
  ((s.dropWhile isGoSpace).reverse.dropWhile isGoSpace).reverse

/-- Go `strings.Contains`: does `pat` occur as a contiguous substring of `s`? -/
def occursIn (pat : List Char) : List Char → Bool
  | [] => pat.isEmpty
  | c :: s => pat.isPrefixOf (c :: s) || occursIn pat s

/-- Suffix of `s` after the first occurrence of `pat` (second component of
Go `strings.SplitN(s, pat, 2)`); `[]` when `pat` does not occur. -/
def afterFirst (pat : List Char) : List Char → List Char
  | [] => []
  | c :: s => if pat.isPrefixOf (c :: s) then (c :: s).drop pat.length else afterFirst pat s

/-- Go `strings.Split(msg, "\n")[0]`: the first line of a message. -/
def firstLineOf (msg : List Char) : List Char := msg.takeWhile (· ≠ '\n')

/-! ### The conventional-commit pattern (src/main.go line 30)

`^(?P<type>feat|fix|docs|style|refactor|perf|test|build|ci|chore|revert)`
`(?:\((?P<scope>[^()\r\n]*)\)|\()?(?P<breaking>!)?: (?P<subject>.*)$`

Go's regexp engine uses leftmost-first (Perl-style backtracking) semantics;
the pattern is anchored at both ends, subjects are matched by `.` which never
matches a line feed, and the eleven type alternatives are pairwise
prefix-free, so matching is the deterministic function below. -/

/-- Result of a successful match of `commitPattern`: the `type` group, the
optional `scope` group, whether the `breaking` group (`!`) matched, and the
`subject` group. -/
structure CommitMatch where
  ctype : List Char
  scope : Option (List Char)
  bang : Bool
  subject : List Char
  deriving DecidableEq, Repr

/-- The eleven commit types, in the alternation order of the pattern. -/
def commitTypes : List (List Char) :=
  [chars "feat", chars "fix", chars "docs", chars "style", chars "refactor",
   chars "perf", chars "test", chars "build", chars "ci", chars "chore", chars "revert"]

/-- Characters allowed in a scope: `[^()\r\n]`. -/
def isScopeChar (c : Char) : Bool := c ≠ '(' && c ≠ ')' && c ≠ '\r' && c ≠ '\n'

/-- Literal `": "` followed by the subject `(?P<subject>.*)$`: the subject is
everything up to the end of the message and may not contain a line feed
(`.` never matches one). -/
def colonTail (r : List Char) : Option (List Char) :=
  if (chars ": ").isPrefixOf r then
    if (r.drop 2).all (· ≠ '\n') then some (r.drop 2) else none
  else none

/-- Tail of the pattern after the scope group: `(?P<breaking>!)?: (?P<subject>.*)$`,
with the engine's backtracking order: consume a `'!'` when possible, fall back
to leaving it unconsumed. -/
def matchTail (r : List Char) : Option (Bool × List Char) :=
  if ['!'].isPrefixOf r then
    match colonTail (r.drop 1) with
    | some subj => some (true, subj)
    | none => (colonTail r).map (fun subj => (false, subj))
  else (colonTail r).map (fun subj => (false, subj))

/-- The optional scope group `(?:\((?P<scope>[^()\r\n]*)\)|\()?` followed by
`matchTail`, with the backtracking order of the engine: a parenthesised scope
first, then a dangling `(`, then no group at all. -/
def matchAfterType (r : List Char) : Option (Option (List Char) × Bool × List Char) :=
  if ['('].isPrefixOf r then
    let r₁ := r.drop 1
    (if [')'].isPrefixOf (r₁.dropWhile isScopeChar) then
       (matchTail ((r₁.dropWhile isScopeChar).drop 1)).map
         (fun p => (some (r₁.takeWhile isScopeChar), p))
     else none).orElse (fun _ =>
      ((matchTail r₁).map (fun p => ((none : Option (List Char)), p))).orElse (fun _ =>
        (matchTail r).map (fun p => ((none : Option (List Char)), p))))
  else (matchTail r).map (fun p => ((none : Option (List Char)), p))

/-- Leftmost-first match of `commitPattern` against a whole message
(`regexp.FindStringSubmatch` / `MatchString` on the anchored pattern):
`none` when the message does not match. -/
def parseCommit (msg : List Char) : Option CommitMatch :=
  match commitTypes.find? (fun t => t.isPrefixOf msg) with
  | none => none
  | some t =>
      (matchAfterType (msg.drop t.length)).map
        (fun p => ⟨t, p.1, p.2.1, p.2.2⟩)

/-- The literal breaking-change marker `"BREAKING CHANGE:"`. -/
def breakingMarker : List Char := chars "BREAKING CHANGE:"

/-- Go `validateCommitMessage` (src/main.go lines 33-53), validity verdict only:
merge commits (prefix `"Merge "`) are always valid, otherwise the message must
match `commitPattern`. -/
def validateCommitMessage (msg : List Char) : Bool :=
  (chars "Merge ").isPrefixOf msg || (parseCommit msg).isSome

/-- Loop body state machine of `determineBumpType` (src/main.go lines 443-480):
scan messages, trimming each; skip empty, merge and non-matching messages;
return `"major"` at the first breaking commit; otherwise raise the running
decision on `feat` / `fix`. -/
def bumpGo (bumpType : String) : List (List Char) → String
  | [] => bumpType
  | msg :: rest =>
      let m := goTrimSpace msg
      if m.isEmpty || (chars "Merge ").isPrefixOf m then bumpGo bumpType rest
      else
        match parseCommit m with
        | none => bumpGo bumpType rest
        | some r =>
            if r.bang || occursIn breakingMarker m then "major"
            else if r.ctype = chars "feat" then
              bumpGo (if bumpType ≠ "major" then "minor" else bumpType) rest
            else if r.ctype = chars "fix" then
              bumpGo (if bumpType ≠ "major" && bumpType ≠ "minor" then "patch" else bumpType) rest
            else bumpGo bumpType rest

/-- Go `determineBumpType` (src/main.go lines 443-480). -/
def determineBumpType (msgs : List (List Char)) : String := bumpGo "none" msgs

/-! ### Changelog categorisation and rendering (src/main.go lines 483-603, 839-854) -/

/-- Lower-casing as performed per rune by Go `strings.ToLower`, restricted to
the mappings that can affect a search for the ASCII skip markers: the ASCII
range plus the two non-ASCII runes whose lower case is ASCII (LATIN CAPITAL
LETTER I WITH DOT ABOVE and KELVIN SIGN); all other runes are kept, which is
faithful for any occurrence of an all-ASCII pattern. -/
def goToLower (c : Char) : Char :=
  if 'A' ≤ c && c ≤ 'Z' then Char.ofNat (c.toNat + 32)
  else if c = Char.ofNat 0x130 then 'i'
  else if c = Char.ofNat 0x212A then 'k'
  else c

/-- Go `shouldSkipCI` (src/main.go lines 839-854): case-insensitive containment
of one of the fixed skip markers. -/
def shouldSkipCI (msg : List Char) : Bool :=
  let lower := msg.map goToLower
  occursIn (chars "[skip-ci]") lower || occursIn (chars "[ci skip]") lower ||
    occursIn (chars "skip-checks: true") lower

/-- The four entry lists accumulated by `generateReleaseNotes`. -/
structure RelNotes where
  breakingChanges : List (List Char)
  features : List (List Char)
  bugFixes : List (List Char)
  otherChanges : List (List Char)
  deriving DecidableEq, Repr

/-- Breaking-changes entry for one commit (src/main.go lines 519-528): the
bullet with the subject, extended by an indented continuation holding the
trimmed text after the first `BREAKING CHANGE:` marker when the message
contains one. -/
def breakingEntry (msg subject : List Char) : List Char :=
  chars "- **BREAKING CHANGE:** " ++ subject ++
    (if occursIn breakingMarker msg then
       chars "\n  " ++ goTrimSpace (afterFirst breakingMarker msg)
     else [])

/-- Loop body of the categorisation in `generateReleaseNotes`
(src/main.go lines 503-545), processing one raw (untrimmed) message. -/
def categorizeStep (acc : RelNotes) (msg : List Char) : RelNotes :=
  if shouldSkipCI msg || (chars "Merge ").isPrefixOf msg then acc
  else
    match parseCommit msg with
    | none => { acc with otherChanges := acc.otherChanges ++ [firstLineOf msg] }
    | some r =>
        if r.bang || occursIn breakingMarker msg then
          { acc with breakingChanges := acc.breakingChanges ++ [breakingEntry msg r.subject] }
        else if r.ctype = chars "feat" then
          { acc with features := acc.features ++ [chars "- **feat:** " ++ r.subject] }
        else if r.ctype = chars "fix" then
          { acc with bugFixes := acc.bugFixes ++ [chars "- **fix:** " ++ r.subject] }
        else if r.ctype ≠ chars "docs" && r.ctype ≠ chars "style" &&
                r.ctype ≠ chars "test" && r.ctype ≠ chars "chore" then
          { acc with otherChanges :=
              acc.otherChanges ++ [chars "- **" ++ r.ctype ++ chars ":** " ++ r.subject] }
        else acc

/-- Commit categorisation of `generateReleaseNotes` over a whole commit list. -/
def categorize (msgs : List (List Char)) : RelNotes :=
  msgs.foldl categorizeStep ⟨[], [], [], []⟩

/-- One rendered changelog section: title, blank line, one line per entry,
trailing blank line; empty when there is no entry
(src/main.go lines 551-581). -/
def renderSection (title : List Char) (entries : List (List Char)) : List Char :=
  if entries.isEmpty then []
  else title ++ chars "\n\n" ++ (entries.map (fun e => e ++ ['\n'])).flatten ++ ['\n']

/-- Markdown fragment produced by `generateReleaseNotes`
(src/main.go lines 547-583); the header's tag name and the formatted current
date are collaborator inputs. -/
def renderNotes (newTagForHeader date : List Char) (msgs : List (List Char)) : List Char :=
  let n := categorize msgs
  chars "## " ++ newTagForHeader ++ chars " (" ++ date ++ chars ")\n\n" ++
    renderSection (chars "### BREAKING CHANGES") n.breakingChanges ++
    renderSection (chars "### Features") n.features ++
    renderSection (chars "### Bug Fixes") n.bugFixes ++
    renderSection (chars "### Other Changes") n.otherChanges

/-! ### Versions and `calculateNewVersion` (src/main.go lines 605-738)

Version values and their arithmetic live in the external Masterminds
semver library, which is not part of this repository's source; they are
modelled from the specification (spec.md sections 3, 4.3). -/

/-- Modelled from the spec: the Version value of the external semver library,
`{major, minor, patch: non-negative integer, prerelease: optional string}`
(spec.md section 3); an empty `pre` means no prerelease. -/
structure SemVer where
  major : Nat
  minor : Nat
  patch : Nat
  pre : List Char
  deriving DecidableEq, Repr

/-- Decimal digit characters of a natural number (`strconv` formatting),
computed with a step-count bound to keep the definition structural. -/
def natCharsGo (fuel n : Nat) : List Char :=
  match fuel with
  | 0 => [Char.ofNat (48 + n % 10)]
  | fuel + 1 =>
      if n < 10 then [Char.ofNat (48 + n % 10)]
      else natCharsGo fuel (n / 10) ++ [Char.ofNat (48 + n % 10)]

/-- Decimal representation of a natural number as characters. -/
def natChars (n : Nat) : List Char := natCharsGo n n

/-- Modelled from the spec: the library's `IncMajor` — "major bump zeroes minor
and patch and increments major ... Prerelease field is cleared"
(spec.md section 4.3). -/
def incMajor (v : SemVer) : SemVer := ⟨v.major + 1, 0, 0, []⟩

/-- Modelled from the spec: the library's `IncMinor` — "minor bump zeroes patch
and increments minor ... Prerelease field is cleared" (spec.md section 4.3). -/
def incMinor (v : SemVer) : SemVer := ⟨v.major, v.minor + 1, 0, []⟩

/-- Modelled from the spec: the library's `IncPatch` — "patch/default
increments patch only. Prerelease field is cleared" (spec.md section 4.3). -/
def incPatch (v : SemVer) : SemVer := ⟨v.major, v.minor, v.patch + 1, []⟩

/-- Modelled from the spec: the library's `SetPrerelease` — attach the given
prerelease to the version (spec.md section 4.3). -/
def setPre (v : SemVer) (p : List Char) : SemVer := ⟨v.major, v.minor, v.patch, p⟩

/-- Modelled from the spec: the library's `Version.String` — dotted
major.minor.patch, followed by a hyphen and the prerelease when one is set. -/
def verString (v : SemVer) : List Char :=
  natChars v.major ++ ['.'] ++ natChars v.minor ++ ['.'] ++ natChars v.patch ++
    (if v.pre.isEmpty then [] else '-' :: v.pre)

/-- Is `c` a decimal digit (regexp `\d`)? -/
def isDigitChar (c : Char) : Bool := '0' ≤ c && c ≤ '9'

/-- Characters a prerelease identifier may use: `[0-9A-Za-z-]`. -/
def isIdentChar (c : Char) : Bool :=
  ('0' ≤ c && c ≤ '9') || ('A' ≤ c && c ≤ 'Z') || ('a' ≤ c && c ≤ 'z') || c = '-'

/-- Split a character list at every `'.'` (dot-separated identifiers). -/
def splitDots : List Char → List (List Char)
  | [] => [[]]
  | c :: s =>
      if c = '.' then [] :: splitDots s
      else
        match splitDots s with
        | [] => [[c]]
        | seg :: rest => (c :: seg) :: rest

/-- Numeric value of a list of decimal digit characters (the mathematical
value of the digit string passed to `strconv.Atoi`; `Atoi`'s int64 range
check is modelled at its call site in the tag scan). -/
def natOfDigits (ds : List Char) : Nat := ds.foldl (fun a c => 10 * a + (c.toNat - 48)) 0

/-- The largest value `strconv.Atoi` accepts on a 64-bit platform
(`math.MaxInt64`): on a digit string whose value exceeds it, `Atoi` returns
a range error and the tag-scan loop skips the tag (src/main.go
lines 664-665). -/
def maxInt64 : Nat := 9223372036854775807

/-- Two's-complement reading of a natural number as a Go `int` (64 bits):
the counter increment at src/main.go line 678 is Go `int` arithmetic, which
wraps past `math.MaxInt64`. -/
def toInt64 (n : Nat) : Int :=
  if n % 18446744073709551616 < 9223372036854775808 then
    ((n % 18446744073709551616 : Nat) : Int)
  else ((n % 18446744073709551616 : Nat) : Int) - 18446744073709551616

/-- Decimal rendering of a Go `int` by `fmt.Sprintf` with the `%d` verb. -/
def intChars (i : Int) : List Char :=
  if i < 0 then '-' :: natChars i.natAbs else natChars i.toNat

/-- Modelled from the spec: parsing a version string with the external
library's `semver.NewVersion` — `major.minor.patch` with an optional
`-prerelease` whose dot-separated identifier segments are non-empty
(spec.md sections 3, 4.3; malformed strings are reported as unparsable and
skipped by the callers). -/
def parseSemVer (s : List Char) : Option SemVer :=
  let d1 := s.takeWhile isDigitChar
  let r1 := s.dropWhile isDigitChar
  if d1.isEmpty then none
  else if ['.'].isPrefixOf r1 then
    let s₂ := r1.drop 1
    let d2 := s₂.takeWhile isDigitChar
    let r2 := s₂.dropWhile isDigitChar
    if d2.isEmpty then none
    else if ['.'].isPrefixOf r2 then
      let s₃ := r2.drop 1
      let d3 := s₃.takeWhile isDigitChar
      let r3 := s₃.dropWhile isDigitChar
      if d3.isEmpty then none
      else if r3.isEmpty then some ⟨natOfDigits d1, natOfDigits d2, natOfDigits d3, []⟩
      else if ['-'].isPrefixOf r3 then
        let p := r3.drop 1
        if (splitDots p).all (fun seg => !seg.isEmpty && seg.all isIdentChar) then
          some ⟨natOfDigits d1, natOfDigits d2, natOfDigits d3, p⟩
        else none
      else none
    else none
  else none

/-- Go `strings.TrimPrefix(tag, "v")`. -/
def trimV (t : List Char) : List Char :=
  if ('v' :: []).isPrefixOf t then t.drop 1 else t

/-- Branch sanitisation of `calculateNewVersion` (src/main.go line 651):
every character outside `[a-zA-Z0-9-]` becomes `'-'`. -/
def sanitizeBranch (b : List Char) : List Char :=
  b.map (fun c =>
    if ('a' ≤ c && c ≤ 'z') || ('A' ≤ c && c ≤ 'Z') || ('0' ≤ c && c ≤ '9') || c = '-'
    then c else '-')

/-- Match of the branch pre-release pattern
`v\d+\.\d+\.\d+-<sanitizedBranch>\.(\d+)$` starting at the head of `t` and
extending to its end, returning the captured counter. -/
def branchPatHere (sb t : List Char) : Option Nat :=
  if ['v'].isPrefixOf t then
    let t₁ := t.drop 1
    let d1 := t₁.takeWhile isDigitChar
    let r1 := t₁.dropWhile isDigitChar
    if d1.isEmpty then none
    else if ['.'].isPrefixOf r1 then
      let t₂ := r1.drop 1
      let d2 := t₂.takeWhile isDigitChar
      let r2 := t₂.dropWhile isDigitChar
      if d2.isEmpty then none
      else if ['.'].isPrefixOf r2 then
        let t₃ := r2.drop 1
        let d3 := t₃.takeWhile isDigitChar
        let r3 := t₃.dropWhile isDigitChar
        if d3.isEmpty then none
        else if ['-'].isPrefixOf r3 then
          let t₄ := r3.drop 1
          if sb.isPrefixOf t₄ then
            let t₅' := t₄.drop sb.length
            if ['.'].isPrefixOf t₅' then
              let t₅ := t₅'.drop 1
              if !t₅.isEmpty && t₅.all isDigitChar then some (natOfDigits t₅) else none
            else none
          else none
        else none
      else none
    else none
  else none

/-- Leftmost match of the (unanchored-at-the-left, `$`-anchored) branch
pre-release pattern in a tag (`FindStringSubmatch`), returning the captured
counter of the leftmost matching position. -/
def branchTagNum (sb : List Char) : List Char → Option Nat
  | [] => branchPatHere sb []
  | c :: t =>
      match branchPatHere sb (c :: t) with
      | some n => some n
      | none => branchTagNum sb t

/-- One step of the tag scan (loop body, src/main.go lines 661-673): a tag
whose pattern match captures `n`, whose captured digits are accepted by
`strconv.Atoi` (no int64 range error, lines 664-665) and whose version
parses replaces the running best when `n` is strictly greater. -/
def fhStep (sb : List Char) (best : Option (SemVer × Nat)) (tag : List Char) :
    Option (SemVer × Nat) :=
  match branchTagNum sb tag with
  | some n =>
      if n ≤ maxInt64 then
        match parseSemVer (trimV tag) with
        | some v =>
            match best with
            | none => some (v, n)
            | some (bv, bn) => if n > bn then some (v, n) else some (bv, bn)
        | none => best
      else best
  | none => best

/-- Scan of all tags for the highest branch pre-release counter
(src/main.go lines 653-674): keep the first tag attaining the strictly
greatest captured counter, together with its parsed version. -/
def findHighestBranchPre (sb : List Char) (tags : List (List Char)) :
    Option (SemVer × Nat) :=
  tags.foldl (fhStep sb) none

/-- Release-regime bump of `calculateNewVersion` (src/main.go lines 638-648
and 684-697): `major` and `minor` bump accordingly, anything else is the
`patch`/default case. -/
def releaseBump (bumpType : String) (v : SemVer) : SemVer :=
  if bumpType = "major" then incMajor v
  else if bumpType = "minor" then incMinor v
  else incPatch v

/-- Go `calculateNewVersion` (src/main.go lines 637-715).  The tag list is the
collaborator-supplied snapshot scanned for branch pre-release tags, and
`latestRelease` is the collaborator-supplied highest release (non-prerelease)
version of `getCurrentReleaseVersion`, defaulting to `0.0.0` when none
exists.  The counter successor at line 678 is Go `int` arithmetic, printed
with the `%d` verb. -/
def calculateNewVersion (current : SemVer) (bumpType : String) (branch : List Char)
    (preRelease : Bool) (tags : List (List Char)) (latestRelease : SemVer) : List Char :=
  if !preRelease then
    verString (releaseBump bumpType current)
  else
    let sb := sanitizeBranch branch
    match findHighestBranchPre sb tags with
    | some (v, n) =>
        let newPre := sb ++ '.' :: intChars (toInt64 (n + 1))
        let bumpedBase :=
          if bumpType = "major" then incMajor v
          else if bumpType = "minor" then incMinor v
          else if bumpType = "patch" then incPatch v
          else ⟨v.major, v.minor, v.patch, []⟩
        verString (setPre bumpedBase newPre)
    | none =>
        verString (setPre latestRelease (sb ++ chars ".0"))

/-! ### Tag formatting (src/main.go lines 294-329)

The final tag name is produced by four sequential `strings.ReplaceAll`
calls on the template.  `replaceAll` below is Go's left-to-right
non-overlapping replacement, written with a step bound so it stays a
structural recursion. -/

/-- Step-bounded core of `strings.ReplaceAll`. -/
def raGo (pat rep : List Char) : Nat → List Char → List Char
  | _, [] => []
  | 0, s => s
  | fuel + 1, c :: s =>
      if pat.isPrefixOf (c :: s) then rep ++ raGo pat rep fuel (s.drop (pat.length - 1))
      else c :: raGo pat rep fuel s

/-- Go `strings.ReplaceAll(s, pat, rep)` for a non-empty `pat`: replace the
leftmost occurrence, continue after the inserted replacement. -/
def replaceAll (pat rep s : List Char) : List Char := raGo pat rep s.length s

/-- The placeholder `{{.Major}}`. -/
def phMajor : List Char := chars "\x7b\x7b.Major\x7d\x7d"

/-- The placeholder `{{.Minor}}`. -/
def phMinor : List Char := chars "\x7b\x7b.Minor\x7d\x7d"

/-- The placeholder `{{.Patch}}`. -/
def phPatch : List Char := chars "\x7b\x7b.Patch\x7d\x7d"

/-- The placeholder `{{.Prerelease}}`. -/
def phPre : List Char := chars "\x7b\x7b.Prerelease\x7d\x7d"

/-- Replacement text for `{{.Prerelease}}` (src/main.go lines 314-325): empty
when there is no prerelease, otherwise a leading hyphen and the prerelease. -/
def preReplacement (v : SemVer) : List Char := if v.pre.isEmpty then [] else '-' :: v.pre

/-- Tag formatting of `main` (src/main.go lines 294-326): sequentially replace
every occurrence of the four placeholders. -/
def formatTag (template : List Char) (v : SemVer) : List Char :=
  replaceAll phPre (preReplacement v)
    (replaceAll phPatch (natChars v.patch)
      (replaceAll phMinor (natChars v.minor)
        (replaceAll phMajor (natChars v.major) template)))

/-- Step-bounded core of the single-pass substitution semantics. -/
def spGo (v : SemVer) : Nat → List Char → List Char
  | _, [] => []
  | 0, s => s
  | fuel + 1, c :: s =>
      if phMajor.isPrefixOf (c :: s) then
        natChars v.major ++ spGo v fuel (s.drop (phMajor.length - 1))
      else if phMinor.isPrefixOf (c :: s) then
        natChars v.minor ++ spGo v fuel (s.drop (phMinor.length - 1))
      else if phPatch.isPrefixOf (c :: s) then
        natChars v.patch ++ spGo v fuel (s.drop (phPatch.length - 1))
      else if phPre.isPrefixOf (c :: s) then
        preReplacement v ++ spGo v fuel (s.drop (phPre.length - 1))
      else c :: spGo v fuel s

/-- Modelled from the spec, for comparison with `formatTag`: the single
left-to-right pass that substitutes each of the four placeholders at every
occurrence and copies all other text verbatim (spec.md section 4.4). -/
def specFormatTag (template : List Char) (v : SemVer) : List Char :=
  spGo v template.length template

/-! ### Basic lemmas: step bounds, decimal digits -/

theorem raGo_fuel_eq (pat rep : List Char) :
    ∀ f₁ f₂ s, s.length ≤ f₁ → s.length ≤ f₂ →
      raGo pat rep f₁ s = raGo pat rep f₂ s := by
  intro f₁
  induction f₁ with
  | zero =>
      intro f₂ s h1 _
      have hs : s = [] := List.length_eq_zero.mp (Nat.le_zero.mp h1)
      subst hs
      cases f₂ <;> rfl
  | succ f ih =>
      intro f₂ s h1 h2
      match s, f₂ with
      | [], f₂ => cases f₂ <;> rfl
      | c :: s', 0 => exact absurd h2 (by simp)
      | c :: s', f₂' + 1 =>
          simp only [raGo]
          have hd : (s'.drop (pat.length - 1)).length ≤ s'.length := by
            simpa using List.length_drop_le (pat.length - 1) s'
          have hl : s'.length ≤ f := Nat.le_of_succ_le_succ (by simpa using h1)
          have hl2 : s'.length ≤ f₂' := Nat.le_of_succ_le_succ (by simpa using h2)
          by_cases hp : pat.isPrefixOf (c :: s') = true
          · rw [if_pos hp, if_pos hp, ih _ _ (le_trans hd hl) (le_trans hd hl2)]
          · rw [if_neg hp, if_neg hp, ih _ _ hl hl2]

theorem replaceAll_nil (pat rep : List Char) : replaceAll pat rep [] = [] := rfl

theorem replaceAll_cons (pat rep : List Char) (c : Char) (s : List Char) :
    replaceAll pat rep (c :: s) =
      if pat.isPrefixOf (c :: s) then
        rep ++ replaceAll pat rep (s.drop (pat.length - 1))
      else c :: replaceAll pat rep s := by
  show raGo pat rep (s.length + 1) (c :: s) = _
  simp only [raGo]
  have hd : (s.drop (pat.length - 1)).length ≤ s.length := by
    simpa using List.length_drop_le (pat.length - 1) s
  by_cases hp : pat.isPrefixOf (c :: s) = true
  · rw [if_pos hp, if_pos hp,
      raGo_fuel_eq pat rep s.length (s.drop (pat.length - 1)).length _ hd le_rfl]
    rfl
  · rw [if_neg hp, if_neg hp]
    rfl

theorem spGo_fuel_eq (v : SemVer) :
    ∀ f₁ f₂ s, s.length ≤ f₁ → s.length ≤ f₂ → spGo v f₁ s = spGo v f₂ s := by
  intro f₁
  induction f₁ with
  | zero =>
      intro f₂ s h1 _
      have hs : s = [] := List.length_eq_zero.mp (Nat.le_zero.mp h1)
      subst hs
      cases f₂ <;> rfl
  | succ f ih =>
      intro f₂ s h1 h2
      match s, f₂ with
      | [], f₂ => cases f₂ <;> rfl
      | c :: s', 0 => exact absurd h2 (by simp)
      | c :: s', f₂' + 1 =>
          have hl : s'.length ≤ f := Nat.le_of_succ_le_succ (by simpa using h1)
          have hl2 : s'.length ≤ f₂' := Nat.le_of_succ_le_succ (by simpa using h2)
          have hd : ∀ k, (s'.drop k).length ≤ s'.length := by
            intro k; simpa using List.length_drop_le k s'
          simp only [spGo]
          by_cases h1' : phMajor.isPrefixOf (c :: s') = true
          · rw [if_pos h1', if_pos h1', ih _ _ (le_trans (hd _) hl) (le_trans (hd _) hl2)]
          · rw [if_neg h1', if_neg h1']
            by_cases h2' : phMinor.isPrefixOf (c :: s') = true
            · rw [if_pos h2', if_pos h2', ih _ _ (le_trans (hd _) hl) (le_trans (hd _) hl2)]
            · rw [if_neg h2', if_neg h2']
              by_cases h3' : phPatch.isPrefixOf (c :: s') = true
              · rw [if_pos h3', if_pos h3', ih _ _ (le_trans (hd _) hl) (le_trans (hd _) hl2)]
              · rw [if_neg h3', if_neg h3']
                by_cases h4' : phPre.isPrefixOf (c :: s') = true
                · rw [if_pos h4', if_pos h4', ih _ _ (le_trans (hd _) hl) (le_trans (hd _) hl2)]
                · rw [if_neg h4', if_neg h4', ih _ _ hl hl2]

theorem specFormatTag_nil (v : SemVer) : specFormatTag [] v = [] := rfl

theorem specFormatTag_cons (v : SemVer) (c : Char) (s : List Char) :
    specFormatTag (c :: s) v =
      if phMajor.isPrefixOf (c :: s) then
        natChars v.major ++ specFormatTag (s.drop (phMajor.length - 1)) v
      else if phMinor.isPrefixOf (c :: s) then
        natChars v.minor ++ specFormatTag (s.drop (phMinor.length - 1)) v
      else if phPatch.isPrefixOf (c :: s) then
        natChars v.patch ++ specFormatTag (s.drop (phPatch.length - 1)) v
      else if phPre.isPrefixOf (c :: s) then
        preReplacement v ++ specFormatTag (s.drop (phPre.length - 1)) v
      else c :: specFormatTag s v := by
  show spGo v (s.length + 1) (c :: s) = _
  simp only [spGo]
  have hd : ∀ k, (s.drop k).length ≤ s.length := by
    intro k; simpa using List.length_drop_le k s
  rw [spGo_fuel_eq v s.length (s.drop (phMajor.length - 1)).length _ (hd _) le_rfl,
      spGo_fuel_eq v s.length (s.drop (phMinor.length - 1)).length _ (hd _) le_rfl,
      spGo_fuel_eq v s.length (s.drop (phPatch.length - 1)).length _ (hd _) le_rfl,
      spGo_fuel_eq v s.length (s.drop (phPre.length - 1)).length _ (hd _) le_rfl]
  rfl

theorem natCharsGo_fuel_eq : ∀ f₁ f₂ n, n ≤ f₁ → n ≤ f₂ →
    natCharsGo f₁ n = natCharsGo f₂ n := by
  intro f₁
  induction f₁ with
  | zero =>
      intro f₂ n h1 _
      have hn : n = 0 := Nat.le_zero.mp h1
      subst hn
      cases f₂ <;> simp [natCharsGo]
  | succ f ih =>
      intro f₂ n h1 h2
      by_cases hn : n < 10
      · cases f₂ <;> simp [natCharsGo, hn]
      · match f₂ with
        | 0 => omega
        | f₂' + 1 =>
            simp only [natCharsGo, hn, if_neg, if_false]
            have hdiv : n / 10 ≤ f := by
              have : n / 10 < n := Nat.div_lt_self (by omega) (by norm_num)
              omega
            have hdiv2 : n / 10 ≤ f₂' := by
              have : n / 10 < n := Nat.div_lt_self (by omega) (by norm_num)
              omega
            rw [ih _ _ hdiv hdiv2]

theorem natChars_eq (n : Nat) :
    natChars n = if n < 10 then [Char.ofNat (48 + n % 10)]
      else natChars (n / 10) ++ [Char.ofNat (48 + n % 10)] := by
  by_cases hn : n < 10
  · cases n <;> simp [natChars, natCharsGo, hn]
  · show natCharsGo n n = _
    match n, hn with
    | m + 1, hn =>
        simp only [natCharsGo, hn, if_neg, if_false]
        have hdiv : (m + 1) / 10 ≤ m := by
          have : (m + 1) / 10 < m + 1 := Nat.div_lt_self (by omega) (by norm_num)
          omega
        rw [natCharsGo_fuel_eq m ((m + 1) / 10) _ hdiv le_rfl]
        rfl

theorem digit_char_toNat (n : Nat) : (Char.ofNat (48 + n % 10)).toNat = 48 + n % 10 := by
  have h : n % 10 < 10 := Nat.mod_lt _ (by norm_num)
  set k := n % 10 with hk
  interval_cases k <;> decide

theorem isDigitChar_digit (n : Nat) : isDigitChar (Char.ofNat (48 + n % 10)) = true := by
  have h : n % 10 < 10 := Nat.mod_lt _ (by norm_num)
  set k := n % 10 with hk
  interval_cases k <;> decide

theorem natChars_all_digits (n : Nat) : ∀ c ∈ natChars n, isDigitChar c = true := by
  induction n using Nat.strong_induction_on with
  | _ n ih =>
      rw [natChars_eq]
      by_cases hn : n < 10
      · simp only [hn, if_pos, List.mem_singleton]
        intro c hc
        subst hc
        exact isDigitChar_digit n
      · simp only [hn, if_neg, if_false, List.mem_append, List.mem_singleton]
        intro c hc
        rcases hc with hc | hc
        · exact ih (n / 10) (Nat.div_lt_self (by omega) (by norm_num)) c hc
        · subst hc
          exact isDigitChar_digit n

theorem natChars_ne_nil (n : Nat) : natChars n ≠ [] := by
  rw [natChars_eq]
  by_cases hn : n < 10 <;> simp [hn]

theorem natOfDigits_append_singleton (a : List Char) (c : Char) :
    natOfDigits (a ++ [c]) = 10 * natOfDigits a + (c.toNat - 48) := by
  simp [natOfDigits, List.foldl_append]

theorem natOfDigits_natChars (n : Nat) : natOfDigits (natChars n) = n := by
  induction n using Nat.strong_induction_on with
  | _ n ih =>
      rw [natChars_eq]
      by_cases hn : n < 10
      · simp only [hn, if_pos]
        show natOfDigits [Char.ofNat (48 + n % 10)] = n
        simp [natOfDigits, digit_char_toNat n]
        omega
      · simp only [hn, if_neg, if_false]
        rw [natOfDigits_append_singleton, ih (n / 10) (Nat.div_lt_self (by omega) (by norm_num)),
            digit_char_toNat n]
        omega

/-! ### Structure of successful commit-pattern matches -/

theorem isPrefixOf_eq_append {p l : List Char} (h : p.isPrefixOf l = true) :
    l = p ++ l.drop p.length := by
  induction p generalizing l with
  | nil => simp
  | cons a p ih =>
      match l with
      | [] => simp [List.isPrefixOf] at h
      | b :: l' =>
          simp only [List.isPrefixOf, Bool.and_eq_true, beq_iff_eq] at h
          obtain ⟨rfl, h2⟩ := h
          simpa using ih h2

theorem mem_takeWhile_sat {p : Char → Bool} {l : List Char} {c : Char}
    (h : c ∈ l.takeWhile p) : p c = true := by
  induction l with
  | nil => simp [List.takeWhile] at h
  | cons a l ih =>
      by_cases ha : p a = true
      · rw [List.takeWhile_cons_of_pos ha] at h
        rcases List.mem_cons.mp h with rfl | h
        · exact ha
        · exact ih h
      · rw [List.takeWhile_cons_of_neg ha] at h
        simp at h

theorem colonTail_shape {r subj : List Char} (h : colonTail r = some subj) :
    r = ':' :: ' ' :: subj ∧ subj.all (· ≠ '\n') = true := by
  unfold colonTail at h
  by_cases hp : (chars ": ").isPrefixOf r = true
  · rw [if_pos hp] at h
    by_cases ha : (r.drop 2).all (· ≠ '\n') = true
    · rw [if_pos ha] at h
      obtain rfl : r.drop 2 = subj := by simpa using h
      have hr := isPrefixOf_eq_append hp
      exact ⟨by simpa [chars] using hr, ha⟩
    · rw [if_neg ha] at h
      exact absurd h (by simp)
  · rw [if_neg hp] at h
    exact absurd h (by simp)

theorem matchTail_shape {r : List Char} {b : Bool} {subj : List Char}
    (h : matchTail r = some (b, subj)) :
    r = (if b then ['!'] else []) ++ ':' :: ' ' :: subj ∧ subj.all (· ≠ '\n') = true := by
  unfold matchTail at h
  by_cases hb : (['!'] : List Char).isPrefixOf r = true
  · rw [if_pos hb] at h
    cases hc : colonTail (r.drop 1) with
    | some s =>
        simp only [hc, Option.some.injEq, Prod.mk.injEq] at h
        obtain ⟨hb', hs'⟩ := h
        obtain ⟨hshape, hall⟩ := colonTail_shape hc
        subst hb' hs'
        refine ⟨?_, hall⟩
        have hr := isPrefixOf_eq_append hb
        rw [if_pos rfl]
        calc r = '!' :: r.drop 1 := by simpa using hr
          _ = '!' :: ':' :: ' ' :: s := by rw [hshape]
          _ = ['!'] ++ ':' :: ' ' :: s := rfl
    | none =>
        simp only [hc, Option.map_eq_some', Option.some.injEq] at h
        obtain ⟨s, hc2, hps⟩ := h
        injection hps with hb' hs'
        obtain ⟨hshape, hall⟩ := colonTail_shape hc2
        subst hb' hs'
        exact ⟨by simpa using hshape, hall⟩
  · rw [if_neg hb] at h
    simp only [Option.map_eq_some', Option.some.injEq] at h
    obtain ⟨s, hc2, hps⟩ := h
    injection hps with hb' hs'
    obtain ⟨hshape, hall⟩ := colonTail_shape hc2
    subst hb' hs'
    exact ⟨by simpa using hshape, hall⟩

theorem matchTail_no_newline {r : List Char} {p : Bool × List Char}
    (h : matchTail r = some p) : '\n' ∉ r := by
  obtain ⟨b, subj⟩ := p
  obtain ⟨hshape, hall⟩ := matchTail_shape h
  rw [hshape]
  intro hmem
  rcases List.mem_append.mp hmem with hl | hr
  · cases b <;> simp at hl
  · rcases List.mem_cons.mp hr with h1 | hr
    · exact absurd h1 (by decide)
    · rcases List.mem_cons.mp hr with h1 | hr
      · exact absurd h1 (by decide)
      · exact absurd (List.all_eq_true.mp hall _ hr) (by simp)

theorem orElse_some {α : Type} {x : Option α} {f : Unit → Option α} {a : α}
    (h : x.orElse f = some a) : x = some a ∨ (x = none ∧ f () = some a) := by
  cases x with
  | some b => left; exact h
  | none => right; exact ⟨rfl, h⟩

theorem matchAfterType_no_newline {r : List Char}
    {q : Option (List Char) × Bool × List Char}
    (h : matchAfterType r = some q) : '\n' ∉ r := by
  unfold matchAfterType at h
  by_cases hp : (['('] : List Char).isPrefixOf r = true
  · rw [if_pos hp] at h
    have hr := isPrefixOf_eq_append hp
    rcases orElse_some h with hA | ⟨_, hBC⟩
    · by_cases hcl : ([')'] : List Char).isPrefixOf ((r.drop 1).dropWhile isScopeChar) = true
      · rw [if_pos hcl] at hA
        simp only [Option.map_eq_some'] at hA
        obtain ⟨p, ht, _⟩ := hA
        have hnl := matchTail_no_newline ht
        have hsplit : r.drop 1 =
            (r.drop 1).takeWhile isScopeChar ++ (r.drop 1).dropWhile isScopeChar :=
          (List.takeWhile_append_dropWhile isScopeChar (r.drop 1)).symm
        have hcl' := isPrefixOf_eq_append hcl
        intro hmem
        rw [show r = '(' :: r.drop 1 from by simpa using hr] at hmem
        rcases List.mem_cons.mp hmem with h0 | hmem
        · exact absurd h0 (by decide)
        rw [hsplit] at hmem
        rcases List.mem_append.mp hmem with h1 | h2
        · exact absurd (mem_takeWhile_sat h1) (by simp [isScopeChar])
        · rw [show (r.drop 1).dropWhile isScopeChar =
                ')' :: ((r.drop 1).dropWhile isScopeChar).drop 1 from by simpa using hcl']
            at h2
          rcases List.mem_cons.mp h2 with h0 | h2
          · exact absurd h0 (by decide)
          · exact hnl h2
      · rw [if_neg hcl] at hA
        simp at hA
    · rcases orElse_some hBC with hB | ⟨_, hC⟩
      · simp only [Option.map_eq_some'] at hB
        obtain ⟨p, ht, _⟩ := hB
        have hnl := matchTail_no_newline ht
        intro hmem
        rw [show r = '(' :: r.drop 1 from by simpa using hr] at hmem
        rcases List.mem_cons.mp hmem with h0 | hmem
        · exact absurd h0 (by decide)
        · exact hnl hmem
      · simp only [Option.map_eq_some'] at hC
        obtain ⟨p, ht, _⟩ := hC
        exact matchTail_no_newline ht
  · rw [if_neg hp] at h
    simp only [Option.map_eq_some'] at h
    obtain ⟨p, ht, _⟩ := h
    exact matchTail_no_newline ht

theorem parseCommit_no_newline {msg : List Char} {r : CommitMatch}
    (h : parseCommit msg = some r) : '\n' ∉ msg := by
  unfold parseCommit at h
  cases hf : commitTypes.find? (fun t => t.isPrefixOf msg) with
  | none =>
      simp only [hf] at h
      exact Option.noConfusion h
  | some t =>
      simp only [hf, Option.map_eq_some'] at h
      obtain ⟨q, hm, _⟩ := h
      have htp : t.isPrefixOf msg = true := by
        have := List.find?_some hf
        simpa using this
      have htm : t ∈ commitTypes := List.mem_of_find?_eq_some hf
      have hnl := matchAfterType_no_newline hm
      have hmsg := isPrefixOf_eq_append htp
      intro hmem
      rw [hmsg] at hmem
      rcases List.mem_append.mp hmem with h1 | h2
      · have hu : ∀ u ∈ commitTypes, '\n' ∉ u := by decide
        exact hu t htm h1
      · exact hnl h2

theorem isPrefixOf_false_of_head_ne {a c : Char} {s m : List Char} (h : a ≠ c) :
    (a :: s).isPrefixOf (c :: m) = false := by
  simp [List.isPrefixOf, h]

theorem parseCommit_eq_none_of_no_type {msg : List Char}
    (h : ∀ t ∈ commitTypes, t.isPrefixOf msg = false) : parseCommit msg = none := by
  unfold parseCommit
  rw [List.find?_eq_none.mpr (by intro t ht; simp [h t ht])]

theorem parseCommit_M (m : List Char) : parseCommit ('M' :: m) = none := by
  apply parseCommit_eq_none_of_no_type
  intro t ht
  fin_cases ht <;> exact isPrefixOf_false_of_head_ne (by decide)

theorem parseCommit_nil : parseCommit ([] : List Char) = none := by rfl

/-! ### A closed form for `determineBumpType` -/

/-- Rank a single message contributes to the bump decision: 3 for a breaking
commit, 2 for `feat`, 1 for `fix`, 0 for everything the scan skips. -/
def msgRank (msg : List Char) : Nat :=
  match parseCommit (goTrimSpace msg) with
  | none => 0
  | some r =>
      if r.bang || occursIn breakingMarker (goTrimSpace msg) then 3
      else if r.ctype = chars "feat" then 2
      else if r.ctype = chars "fix" then 1
      else 0

/-- Greatest message rank of a commit list. -/
def listRank (msgs : List (List Char)) : Nat :=
  msgs.foldr (fun m a => max (msgRank m) a) 0

/-- Bump decision named by a rank. -/
def rankToBump : Nat → String
  | 0 => "none"
  | 1 => "patch"
  | 2 => "minor"
  | _ => "major"

/-- Rank of a bump decision name. -/
def bumpRank (s : String) : Nat :=
  if s = "major" then 3 else if s = "minor" then 2 else if s = "patch" then 1 else 0

theorem rankToBump_ge3 {n : Nat} (h : 3 ≤ n) : rankToBump n = "major" := by
  match n, h with
  | n + 3, _ => rfl

theorem listRank_cons (m : List Char) (l : List (List Char)) :
    listRank (m :: l) = max (msgRank m) (listRank l) := rfl

theorem listRank_append (a b : List (List Char)) :
    listRank (a ++ b) = max (listRank a) (listRank b) := by
  induction a with
  | nil => simp [listRank]
  | cons m a ih =>
      rw [List.cons_append, listRank_cons, listRank_cons, ih]
      omega

theorem listRank_le_of_all_le {msgs : List (List Char)} {k : Nat}
    (h : ∀ m ∈ msgs, msgRank m ≤ k) : listRank msgs ≤ max k 0 := by
  induction msgs with
  | nil => simp [listRank]
  | cons m l ih =>
      rw [listRank_cons]
      have h1 := h m (List.mem_cons_self m l)
      have h2 := ih (fun x hx => h x (List.mem_cons_of_mem m hx))
      omega

theorem le_listRank_of_mem {msgs : List (List Char)} {m : List Char}
    (h : m ∈ msgs) : msgRank m ≤ listRank msgs := by
  induction msgs with
  | nil => simp at h
  | cons x l ih =>
      rw [listRank_cons]
      rcases List.mem_cons.mp h with rfl | h
      · omega
      · have := ih h
        omega

theorem parseCommit_of_merge {m : List Char}
    (h : (chars "Merge ").isPrefixOf m = true) : parseCommit m = none := by
  have hm := isPrefixOf_eq_append h
  rw [show m = 'M' :: ('e' :: 'r' :: 'g' :: 'e' :: ' ' :: m.drop 6) from hm]
  exact parseCommit_M _

theorem dropWhile_is_suffix (p : Char → Bool) (l : List Char) :
    ∃ t, l = t ++ l.dropWhile p := by
  induction l with
  | nil => exact ⟨[], rfl⟩
  | cons c l ih =>
      by_cases hc : p c = true
      · rw [List.dropWhile_cons_of_pos hc]
        obtain ⟨t, ht⟩ := ih
        exact ⟨c :: t, by rw [List.cons_append, ← ht]⟩
      · rw [List.dropWhile_cons_of_neg hc]
        exact ⟨[], rfl⟩

theorem goTrimSpace_merge_unparsable {m : List Char}
    (h : (chars "Merge ").isPrefixOf m = true) :
    parseCommit (goTrimSpace m) = none := by
  have hm := isPrefixOf_eq_append h
  have hm' : m = 'M' :: ('e' :: 'r' :: 'g' :: 'e' :: ' ' :: m.drop 6) := hm
  have hdrop : m.dropWhile isGoSpace = m := by
    rw [hm']
    exact List.dropWhile_cons_of_neg (by decide)
  obtain ⟨t, ht⟩ := dropWhile_is_suffix isGoSpace m.reverse
  have hpref : m = (goTrimSpace m) ++ t.reverse := by
    unfold goTrimSpace
    rw [hdrop]
    calc m = m.reverse.reverse := by rw [List.reverse_reverse]
      _ = (t ++ m.reverse.dropWhile isGoSpace).reverse := by rw [← ht]
      _ = (m.reverse.dropWhile isGoSpace).reverse ++ t.reverse := by
            rw [List.reverse_append]
  cases hg : goTrimSpace m with
  | nil => exact parseCommit_nil
  | cons c g =>
      have : m = c :: (g ++ t.reverse) := by
        rw [hpref, hg]
        rfl
      have hc : c = 'M' := by
        rw [hm'] at this
        exact (List.cons.injEq .. ▸ this.symm).1
      rw [hc]
      exact parseCommit_M g

theorem msgRank_eq_zero_of_unparsable {m : List Char}
    (h : parseCommit (goTrimSpace m) = none) : msgRank m = 0 := by
  simp [msgRank, h]

theorem bumpGo_cons (s : String) (msg : List Char) (rest : List (List Char)) :
    bumpGo s (msg :: rest) =
      (if (goTrimSpace msg).isEmpty || (chars "Merge ").isPrefixOf (goTrimSpace msg) then
         bumpGo s rest
       else
         match parseCommit (goTrimSpace msg) with
         | none => bumpGo s rest
         | some r =>
             if r.bang || occursIn breakingMarker (goTrimSpace msg) then "major"
             else if r.ctype = chars "feat" then
               bumpGo (if s ≠ "major" then "minor" else s) rest
             else if r.ctype = chars "fix" then
               bumpGo (if s ≠ "major" && s ≠ "minor" then "patch" else s) rest
             else bumpGo s rest) := rfl

theorem bumpGo_cons_skip {s : String} {msg : List Char} {rest : List (List Char)}
    (h : ((goTrimSpace msg).isEmpty || (chars "Merge ").isPrefixOf (goTrimSpace msg)) = true) :
    bumpGo s (msg :: rest) = bumpGo s rest := by
  rw [bumpGo_cons, if_pos h]

theorem bumpGo_cons_unrec {s : String} {msg : List Char} {rest : List (List Char)}
    (h : ¬ ((goTrimSpace msg).isEmpty ||
            (chars "Merge ").isPrefixOf (goTrimSpace msg)) = true)
    (hp : parseCommit (goTrimSpace msg) = none) :
    bumpGo s (msg :: rest) = bumpGo s rest := by
  rw [bumpGo_cons, if_neg h, hp]

theorem bumpGo_cons_rec {s : String} {msg : List Char} {rest : List (List Char)}
    {r : CommitMatch}
    (h : ¬ ((goTrimSpace msg).isEmpty ||
            (chars "Merge ").isPrefixOf (goTrimSpace msg)) = true)
    (hp : parseCommit (goTrimSpace msg) = some r) :
    bumpGo s (msg :: rest) =
      (if r.bang || occursIn breakingMarker (goTrimSpace msg) then "major"
       else if r.ctype = chars "feat" then
         bumpGo (if s ≠ "major" then "minor" else s) rest
       else if r.ctype = chars "fix" then
         bumpGo (if s ≠ "major" && s ≠ "minor" then "patch" else s) rest
       else bumpGo s rest) := by
  rw [bumpGo_cons, if_neg h, hp]

/-- Closed form of the `determineBumpType` scan for any reachable running
decision. -/
theorem bumpGo_eq_rank (msgs : List (List Char)) :
    ∀ s : String, s = "none" ∨ s = "patch" ∨ s = "minor" ∨ s = "major" →
      bumpGo s msgs = rankToBump (max (bumpRank s) (listRank msgs)) := by
  induction msgs with
  | nil =>
      intro s hs
      rcases hs with rfl | rfl | rfl | rfl <;> rfl
  | cons msg rest ih =>
      intro s hs
      rw [listRank_cons]
      by_cases hskip :
          ((goTrimSpace msg).isEmpty || (chars "Merge ").isPrefixOf (goTrimSpace msg)) = true
      · rw [bumpGo_cons_skip hskip]
        have hz : msgRank msg = 0 := by
          apply msgRank_eq_zero_of_unparsable
          rcases Bool.or_eq_true_iff.mp hskip with he | hmg
          · rw [List.isEmpty_iff.mp he]
            exact parseCommit_nil
          · exact parseCommit_of_merge hmg
        have hmx : max (bumpRank s) (max (msgRank msg) (listRank rest)) =
            max (bumpRank s) (listRank rest) := by
          rw [hz]; omega
        rw [hmx, ih s hs]
      · cases hp : parseCommit (goTrimSpace msg) with
        | none =>
            rw [bumpGo_cons_unrec hskip hp]
            have hz : msgRank msg = 0 := msgRank_eq_zero_of_unparsable hp
            have hmx : max (bumpRank s) (max (msgRank msg) (listRank rest)) =
                max (bumpRank s) (listRank rest) := by
              rw [hz]; omega
            rw [hmx, ih s hs]
        | some r =>
            rw [bumpGo_cons_rec hskip hp]
            by_cases hbrk : (r.bang || occursIn breakingMarker (goTrimSpace msg)) = true
            · rw [if_pos hbrk]
              have h3 : msgRank msg = 3 := by simp [msgRank, hp, hbrk]
              rw [h3, rankToBump_ge3 (by omega)]
            · rw [if_neg hbrk]
              by_cases hft : r.ctype = chars "feat"
              · rw [if_pos hft]
                have h2 : msgRank msg = 2 := by simp [msgRank, hp, hbrk, hft]
                rw [h2,
                  ih (if s ≠ "major" then "minor" else s)
                    (by rcases hs with rfl | rfl | rfl | rfl <;> decide)]
                have hup : bumpRank (if s ≠ "major" then "minor" else s) =
                    max (bumpRank s) 2 := by
                  rcases hs with rfl | rfl | rfl | rfl <;> decide
                rw [hup]
                have hmx : max (max (bumpRank s) 2) (listRank rest) =
                    max (bumpRank s) (max 2 (listRank rest)) := by omega
                rw [hmx]
              · rw [if_neg hft]
                by_cases hfx : r.ctype = chars "fix"
                · rw [if_pos hfx]
                  have hne : ¬ (chars "fix" = chars "feat") := by decide
                  have h1 : msgRank msg = 1 := by simp [msgRank, hp, hbrk, hfx, hne]
                  rw [h1,
                    ih (if s ≠ "major" && s ≠ "minor" then "patch" else s)
                      (by rcases hs with rfl | rfl | rfl | rfl <;> decide)]
                  have hup : bumpRank (if s ≠ "major" && s ≠ "minor" then "patch" else s) =
                      max (bumpRank s) 1 := by
                    rcases hs with rfl | rfl | rfl | rfl <;> decide
                  rw [hup]
                  have hmx : max (max (bumpRank s) 1) (listRank rest) =
                      max (bumpRank s) (max 1 (listRank rest)) := by omega
                  rw [hmx]
                · rw [if_neg hfx]
                  rw [ih s hs]
                  have hz : msgRank msg = 0 := by simp [msgRank, hp, hbrk, hft, hfx]
                  have hmx : max (bumpRank s) (max (msgRank msg) (listRank rest)) =
                      max (bumpRank s) (listRank rest) := by
                    rw [hz]; omega
                  rw [hmx]

/-- Closed form of `determineBumpType`: the decision is the greatest message
rank, with breaking > feat > fix > everything else. -/
theorem determineBumpType_eq_rank (msgs : List (List Char)) :
    determineBumpType msgs = rankToBump (listRank msgs) := by
  rw [determineBumpType, bumpGo_eq_rank msgs "none" (by simp)]
  have hmx : max (bumpRank "none") (listRank msgs) = listRank msgs := by
    have : bumpRank "none" = 0 := rfl
    omega
  rw [hmx]

theorem listRank_perm {l₁ l₂ : List (List Char)} (h : l₁.Perm l₂) :
    listRank l₁ = listRank l₂ := by
  induction h with
  | nil => rfl
  | cons x _ ih => rw [listRank_cons, listRank_cons, ih]
  | swap x y l => rw [listRank_cons, listRank_cons, listRank_cons, listRank_cons]; omega
  | trans _ _ ih1 ih2 => rw [ih1, ih2]

/-! ### A closed form for the changelog categorisation -/

/-- Entry the given commit contributes to BREAKING CHANGES, if any. -/
def bcOf (msg : List Char) : Option (List Char) :=
  if shouldSkipCI msg || (chars "Merge ").isPrefixOf msg then none
  else
    match parseCommit msg with
    | none => none
    | some r =>
        if r.bang || occursIn breakingMarker msg then some (breakingEntry msg r.subject)
        else none

/-- Entry the given commit contributes to Features, if any. -/
def fsOf (msg : List Char) : Option (List Char) :=
  if shouldSkipCI msg || (chars "Merge ").isPrefixOf msg then none
  else
    match parseCommit msg with
    | none => none
    | some r =>
        if r.bang || occursIn breakingMarker msg then none
        else if r.ctype = chars "feat" then some (chars "- **feat:** " ++ r.subject)
        else none

/-- Entry the given commit contributes to Bug Fixes, if any. -/
def bfOf (msg : List Char) : Option (List Char) :=
  if shouldSkipCI msg || (chars "Merge ").isPrefixOf msg then none
  else
    match parseCommit msg with
    | none => none
    | some r =>
        if r.bang || occursIn breakingMarker msg then none
        else if r.ctype = chars "feat" then none
        else if r.ctype = chars "fix" then some (chars "- **fix:** " ++ r.subject)
        else none

/-- Entry the given commit contributes to Other Changes, if any. -/
def ocOf (msg : List Char) : Option (List Char) :=
  if shouldSkipCI msg || (chars "Merge ").isPrefixOf msg then none
  else
    match parseCommit msg with
    | none => some (firstLineOf msg)
    | some r =>
        if r.bang || occursIn breakingMarker msg then none
        else if r.ctype = chars "feat" then none
        else if r.ctype = chars "fix" then none
        else if r.ctype ≠ chars "docs" && r.ctype ≠ chars "style" &&
                r.ctype ≠ chars "test" && r.ctype ≠ chars "chore" then
          some (chars "- **" ++ r.ctype ++ chars ":** " ++ r.subject)
        else none

theorem categorizeStep_eq (acc : RelNotes) (msg : List Char) :
    categorizeStep acc msg =
      ⟨acc.breakingChanges ++ (bcOf msg).toList, acc.features ++ (fsOf msg).toList,
       acc.bugFixes ++ (bfOf msg).toList, acc.otherChanges ++ (ocOf msg).toList⟩ := by
  unfold categorizeStep bcOf fsOf bfOf ocOf
  by_cases hskip : (shouldSkipCI msg || (chars "Merge ").isPrefixOf msg) = true
  · rw [if_pos hskip, if_pos hskip, if_pos hskip, if_pos hskip, if_pos hskip]
    simp
  · rw [if_neg hskip, if_neg hskip, if_neg hskip, if_neg hskip, if_neg hskip]
    cases hp : parseCommit msg with
    | none => simp
    | some r =>
        by_cases hbrk : (r.bang || occursIn breakingMarker msg) = true
        · simp [hbrk]
        · by_cases hft : r.ctype = chars "feat"
          · simp [hbrk, hft]
          · by_cases hfx : r.ctype = chars "fix"
            · have hd1 : ¬ (chars "fix" = chars "feat") := by decide
              simp [hbrk, hft, hfx, hd1]
            · by_cases hot : (r.ctype ≠ chars "docs" && r.ctype ≠ chars "style" &&
                  r.ctype ≠ chars "test" && r.ctype ≠ chars "chore") = true
              · simp only [hot]
                simp [hbrk, hft, hfx]
              · have hot' : (r.ctype ≠ chars "docs" && r.ctype ≠ chars "style" &&
                    r.ctype ≠ chars "test" && r.ctype ≠ chars "chore") = false := by
                  simpa using hot
                simp only [hot']
                simp [hbrk, hft, hfx]

theorem categorize_foldl (msgs : List (List Char)) :
    ∀ acc : RelNotes, msgs.foldl categorizeStep acc =
      ⟨acc.breakingChanges ++ msgs.filterMap bcOf, acc.features ++ msgs.filterMap fsOf,
       acc.bugFixes ++ msgs.filterMap bfOf, acc.otherChanges ++ msgs.filterMap ocOf⟩ := by
  induction msgs with
  | nil => intro acc; simp
  | cons msg rest ih =>
      intro acc
      rw [List.foldl_cons, ih (categorizeStep acc msg), categorizeStep_eq]
      cases hbc : bcOf msg <;> cases hfs : fsOf msg <;> cases hbf : bfOf msg <;>
        cases hoc : ocOf msg <;>
          simp [List.filterMap_cons, hbc, hfs, hbf, hoc]

/-- Closed form of `categorize`: each section collects its per-commit
entries in commit order. -/
theorem categorize_eq (msgs : List (List Char)) :
    categorize msgs =
      ⟨msgs.filterMap bcOf, msgs.filterMap fsOf, msgs.filterMap bfOf,
       msgs.filterMap ocOf⟩ := by
  rw [categorize, categorize_foldl]
  rfl

/-! ### The branch pre-release tag scan -/

/-- A tag of exactly the branch pre-release form
`v<major>.<minor>.<patch>-<sanitizedBranch>.<N>`. -/
def mkBranchTag (maj mnr pat : Nat) (sb : List Char) (n : Nat) : List Char :=
  'v' :: (natChars maj ++ '.' :: (natChars mnr ++ '.' :: (natChars pat ++ '-' ::
    (sb ++ '.' :: natChars n))))

theorem natChars_isEmpty (n : Nat) : (natChars n).isEmpty = false := by
  cases h : natChars n with
  | nil => exact absurd h (natChars_ne_nil n)
  | cons c l => rfl

theorem span_digits_append {a : List Char} (ha : ∀ c ∈ a, isDigitChar c = true)
    {c : Char} (hc : isDigitChar c = false) (r : List Char) :
    (a ++ c :: r).takeWhile isDigitChar = a ∧
      (a ++ c :: r).dropWhile isDigitChar = c :: r := by
  induction a with
  | nil =>
      constructor
      · simp [List.takeWhile_cons, hc]
      · simp [List.dropWhile_cons, hc]
  | cons x a ih =>
      have hx : isDigitChar x = true := ha x (List.mem_cons_self x a)
      have ih' := ih (fun y hy => ha y (List.mem_cons_of_mem x hy))
      constructor
      · rw [List.cons_append, List.takeWhile_cons_of_pos hx, ih'.1]
      · rw [List.cons_append, List.dropWhile_cons_of_pos hx, ih'.2]

theorem isPrefixOf_append_self (p t : List Char) : p.isPrefixOf (p ++ t) = true := by
  induction p with
  | nil => simp [List.isPrefixOf]
  | cons c p ih => simp [List.isPrefixOf, ih]

theorem singleton_isPrefixOf_cons (c : Char) (x : List Char) :
    [c].isPrefixOf (c :: x) = true := by
  simp [List.isPrefixOf]

theorem branchPatHere_mkTag (maj mnr pat : Nat) (sb : List Char) (n : Nat) :
    branchPatHere sb (mkBranchTag maj mnr pat sb n) = some n := by
  have h1 := span_digits_append (natChars_all_digits maj) (c := '.') (by decide)
    (natChars mnr ++ '.' :: (natChars pat ++ '-' :: (sb ++ '.' :: natChars n)))
  have h2 := span_digits_append (natChars_all_digits mnr) (c := '.') (by decide)
    (natChars pat ++ '-' :: (sb ++ '.' :: natChars n))
  have h3 := span_digits_append (natChars_all_digits pat) (c := '-') (by decide)
    (sb ++ '.' :: natChars n)
  have h5 : (natChars n).all isDigitChar = true :=
    List.all_eq_true.mpr (natChars_all_digits n)
  simp only [branchPatHere, mkBranchTag, singleton_isPrefixOf_cons, if_pos,
    List.drop_succ_cons, List.drop_zero, h1.1, h1.2, h2.1, h2.2, h3.1, h3.2,
    natChars_isEmpty, List.drop_left, isPrefixOf_append_self, h5,
    natOfDigits_natChars, Bool.not_false, Bool.true_and, if_true, if_false,
    Bool.false_eq_true]

theorem branchTagNum_cons (sb : List Char) (c : Char) (t : List Char) :
    branchTagNum sb (c :: t) =
      (match branchPatHere sb (c :: t) with
       | some n => some n
       | none => branchTagNum sb t) := rfl

theorem branchTagNum_mkTag (maj mnr pat : Nat) (sb : List Char) (n : Nat) :
    branchTagNum sb (mkBranchTag maj mnr pat sb n) = some n := by
  rw [show mkBranchTag maj mnr pat sb n = 'v' :: (mkBranchTag maj mnr pat sb n).drop 1
      from rfl, branchTagNum_cons, ← show mkBranchTag maj mnr pat sb n =
        'v' :: (mkBranchTag maj mnr pat sb n).drop 1 from rfl,
      branchPatHere_mkTag]

theorem trimV_cons_v (x : List Char) : trimV ('v' :: x) = x := by
  simp [trimV, List.isPrefixOf]

theorem splitDots_ne_nil (l : List Char) : splitDots l ≠ [] := by
  cases l with
  | nil => simp [splitDots]
  | cons c s =>
      simp only [splitDots]
      by_cases hc : c = '.'
      · simp [hc]
      · rw [if_neg hc]
        cases splitDots s <;> simp

theorem splitDots_dot (s : List Char) : splitDots ('.' :: s) = [] :: splitDots s := by
  simp [splitDots]

theorem splitDots_cons_ne {c : Char} (hc : ¬ c = '.') (s : List Char) :
    splitDots (c :: s) =
      (match splitDots s with
       | [] => [[c]]
       | seg :: rest => (c :: seg) :: rest) := by
  simp [splitDots, hc]

theorem splitDots_dotfree {a : List Char} (ha : ∀ c ∈ a, ¬ c = '.') :
    splitDots a = [a] := by
  induction a with
  | nil => rfl
  | cons c a ih =>
      have hc : ¬ c = '.' := ha c (List.mem_cons_self c a)
      rw [splitDots_cons_ne hc, ih (fun y hy => ha y (List.mem_cons_of_mem c hy))]

theorem splitDots_dotfree_append {a : List Char} (ha : ∀ c ∈ a, ¬ c = '.')
    (x : List Char) : splitDots (a ++ '.' :: x) = a :: splitDots x := by
  induction a with
  | nil => simpa using splitDots_dot x
  | cons c a ih =>
      have hc : ¬ c = '.' := ha c (List.mem_cons_self c a)
      rw [List.cons_append, splitDots_cons_ne hc,
        ih (fun y hy => ha y (List.mem_cons_of_mem c hy))]

theorem isIdentChar_of_digit {c : Char} (h : isDigitChar c = true) :
    isIdentChar c = true := by
  simp only [isDigitChar, Bool.and_eq_true] at h
  simp [isIdentChar, h]

theorem digit_ne_dot {c : Char} (h : isDigitChar c = true) : ¬ c = '.' := by
  intro hc
  subst hc
  simp [isDigitChar] at h

/-- Characters of a sanitised branch name are in `[a-zA-Z0-9-]`. -/
theorem sanitizeBranch_chars (b : List Char) :
    ∀ c ∈ sanitizeBranch b, isIdentChar c = true := by
  intro c hc
  rcases List.mem_map.mp hc with ⟨x, _, hx⟩
  by_cases hcl : (('a' ≤ x && x ≤ 'z') || ('A' ≤ x && x ≤ 'Z') ||
      ('0' ≤ x && x ≤ '9') || x = '-') = true
  · rw [if_pos hcl] at hx
    subst hx
    simp only [Bool.or_eq_true, Bool.and_eq_true, decide_eq_true_iff] at hcl
    simp only [isIdentChar, Bool.or_eq_true, Bool.and_eq_true, decide_eq_true_iff]
    tauto
  · rw [if_neg hcl] at hx
    subst hx
    decide

theorem sanitizeBranch_no_dot (b : List Char) :
    ∀ c ∈ sanitizeBranch b, ¬ c = '.' := by
  intro c hc hdot
  subst hdot
  have := sanitizeBranch_chars b '.' hc
  simp [isIdentChar] at this

theorem parseSemVer_mkTag (maj mnr pat : Nat) {sb : List Char}
    (hsb : ∀ c ∈ sb, isIdentChar c = true) (hne : sb ≠ [])
    (hnd : ∀ c ∈ sb, ¬ c = '.') (n : Nat) :
    parseSemVer (trimV (mkBranchTag maj mnr pat sb n)) =
      some ⟨maj, mnr, pat, sb ++ '.' :: natChars n⟩ := by
  rw [show trimV (mkBranchTag maj mnr pat sb n) =
      natChars maj ++ '.' :: (natChars mnr ++ '.' :: (natChars pat ++ '-' ::
        (sb ++ '.' :: natChars n))) from trimV_cons_v _]
  have h1 := span_digits_append (natChars_all_digits maj) (c := '.') (by decide)
    (natChars mnr ++ '.' :: (natChars pat ++ '-' :: (sb ++ '.' :: natChars n)))
  have h2 := span_digits_append (natChars_all_digits mnr) (c := '.') (by decide)
    (natChars pat ++ '-' :: (sb ++ '.' :: natChars n))
  have h3 := span_digits_append (natChars_all_digits pat) (c := '-') (by decide)
    (sb ++ '.' :: natChars n)
  have hsplit : splitDots (sb ++ '.' :: natChars n) = [sb, natChars n] := by
    rw [splitDots_dotfree_append hnd, splitDots_dotfree (fun c hc =>
      digit_ne_dot (natChars_all_digits n c hc))]
  have hvalid : (splitDots (sb ++ '.' :: natChars n)).all
      (fun seg => !seg.isEmpty && seg.all isIdentChar) = true := by
    rw [hsplit]
    simp only [List.all_cons, List.all_nil, Bool.and_eq_true, Bool.and_true,
      Bool.not_eq_true']
    refine ⟨⟨?_, List.all_eq_true.mpr hsb⟩, ?_, ?_⟩
    · cases hs : sb with
      | nil => exact absurd hs hne
      | cons c l => rfl
    · exact natChars_isEmpty n
    · exact List.all_eq_true.mpr (fun c hc =>
        isIdentChar_of_digit (natChars_all_digits n c hc))
  have hemp : (('-' :: (sb ++ '.' :: natChars n)) : List Char).isEmpty = false := rfl
  simp only [parseSemVer, h1.1, h1.2, h2.1, h2.2, h3.1, h3.2, natChars_isEmpty,
    singleton_isPrefixOf_cons, if_pos, List.drop_succ_cons, List.drop_zero,
    hemp, hvalid, natOfDigits_natChars, if_true, if_false, Bool.false_eq_true]

theorem fhStep_nomatch {sb : List Char} {best : Option (SemVer × Nat)} {tag : List Char}
    (h : branchTagNum sb tag = none) : fhStep sb best tag = best := by
  simp [fhStep, h]

theorem fhStep_mkTag {sb : List Char} (hsb : ∀ c ∈ sb, isIdentChar c = true)
    (hne : sb ≠ []) (hnd : ∀ c ∈ sb, ¬ c = '.')
    (best : Option (SemVer × Nat)) (maj' mnr' pat' n' : Nat)
    (hle : n' ≤ maxInt64) :
    fhStep sb best (mkBranchTag maj' mnr' pat' sb n') =
      (match best with
       | none => some (⟨maj', mnr', pat', sb ++ '.' :: natChars n'⟩, n')
       | some (bv, bn) =>
           if n' > bn then some (⟨maj', mnr', pat', sb ++ '.' :: natChars n'⟩, n')
           else some (bv, bn)) := by
  unfold fhStep
  simp only [branchTagNum_mkTag]
  rw [if_pos hle, parseSemVer_mkTag maj' mnr' pat' hsb hne hnd n']

/-- A tag of the branch pre-release form whose counter exceeds
`math.MaxInt64` is skipped by the scan (`strconv.Atoi` range error,
src/main.go lines 664-665). -/
theorem fhStep_mkTag_big {sb : List Char} (best : Option (SemVer × Nat))
    (maj' mnr' pat' n' : Nat) (hgt : ¬ n' ≤ maxInt64) :
    fhStep sb best (mkBranchTag maj' mnr' pat' sb n') = best := by
  unfold fhStep
  simp only [branchTagNum_mkTag]
  rw [if_neg hgt]

theorem fhStep_mkTag_none {sb : List Char} (hsb : ∀ c ∈ sb, isIdentChar c = true)
    (hne : sb ≠ []) (hnd : ∀ c ∈ sb, ¬ c = '.') (maj' mnr' pat' n' : Nat)
    (hle : n' ≤ maxInt64) :
    fhStep sb none (mkBranchTag maj' mnr' pat' sb n') =
      some (⟨maj', mnr', pat', sb ++ '.' :: natChars n'⟩, n') := by
  rw [fhStep_mkTag hsb hne hnd _ _ _ _ _ hle]

theorem fhStep_mkTag_some {sb : List Char} (hsb : ∀ c ∈ sb, isIdentChar c = true)
    (hne : sb ≠ []) (hnd : ∀ c ∈ sb, ¬ c = '.') (bv : SemVer) (bn : Nat)
    (maj' mnr' pat' n' : Nat) (hle : n' ≤ maxInt64) :
    fhStep sb (some (bv, bn)) (mkBranchTag maj' mnr' pat' sb n') =
      (if n' > bn then some (⟨maj', mnr', pat', sb ++ '.' :: natChars n'⟩, n')
       else some (bv, bn)) := by
  rw [fhStep_mkTag hsb hne hnd _ _ _ _ _ hle]

theorem foldl_fhStep_inv (sb : List Char) (P : Option (SemVer × Nat) → Prop)
    (l : List (List Char))
    (hstep : ∀ best t, t ∈ l → P best → P (fhStep sb best t)) :
    ∀ init, P init → P (l.foldl (fhStep sb) init) := by
  induction l with
  | nil => intro init h0; exact h0
  | cons t l ih =>
      intro init h0
      rw [List.foldl_cons]
      exact ih (fun best u hu hP => hstep best u (List.mem_cons_of_mem t hu) hP)
        (fhStep sb init t) (hstep init t (List.mem_cons_self t l) h0)

theorem findHighest_none {sb : List Char} {tags : List (List Char)}
    (h : ∀ t ∈ tags, branchTagNum sb t = none) :
    findHighestBranchPre sb tags = none := by
  unfold findHighestBranchPre
  exact foldl_fhStep_inv sb (fun best => best = none) tags
    (fun best t ht hP => by rw [fhStep_nomatch (h t ht), hP]) none rfl

/-- When every tag is either invisible to the branch pattern or has exactly
the branch pre-release form — those with counters over `math.MaxInt64` being
skipped by the `Atoi` range check — and the form tag with counter `n`
(fitting an int) is present and maximal among the fitting ones, the scan
returns its parsed version and counter. -/
theorem findHighest_max {sb : List Char} (hsb : ∀ c ∈ sb, isIdentChar c = true)
    (hne : sb ≠ []) (hnd : ∀ c ∈ sb, ¬ c = '.') {tags : List (List Char)}
    {maj mnr pat n : Nat} (hn : n ≤ maxInt64)
    (hmem : mkBranchTag maj mnr pat sb n ∈ tags)
    (hok : ∀ t ∈ tags, branchTagNum sb t = none ∨
      ∃ maj' mnr' pat' n', t = mkBranchTag maj' mnr' pat' sb n' ∧
        (maxInt64 < n' ∨ n' < n ∨ (n' = n ∧ maj' = maj ∧ mnr' = mnr ∧ pat' = pat))) :
    findHighestBranchPre sb tags =
      some (⟨maj, mnr, pat, sb ++ '.' :: natChars n⟩, n) := by
  obtain ⟨l₁, l₂, rfl⟩ := List.append_of_mem hmem
  set target : SemVer := ⟨maj, mnr, pat, sb ++ '.' :: natChars n⟩ with htarget
  have hGoodStep : ∀ best t, t ∈ l₁ ++ mkBranchTag maj mnr pat sb n :: l₂ →
      (best = none ∨ ∃ v' n', best = some (v', n') ∧
        (n' < n ∨ (n' = n ∧ v' = target))) →
      (fhStep sb best t = none ∨ ∃ v' n', fhStep sb best t = some (v', n') ∧
        (n' < n ∨ (n' = n ∧ v' = target))) := by
    intro best t ht hgood
    rcases hok t ht with hnm | ⟨maj', mnr', pat', n', rfl, hlt⟩
    · rw [fhStep_nomatch hnm]
      exact hgood
    · rcases hlt with hbig | hlt
      · rw [fhStep_mkTag_big best maj' mnr' pat' n' (by omega)]
        exact hgood
      · have hle : n' ≤ maxInt64 := by
          rcases hlt with h | ⟨rfl, _, _, _⟩
          · omega
          · exact hn
        rcases hgood with rfl | ⟨v'', n'', rfl, hgg⟩
        · rw [fhStep_mkTag_none hsb hne hnd _ _ _ _ hle]
          right
          refine ⟨_, n', rfl, ?_⟩
          rcases hlt with hlt | ⟨rfl, h1, h2, h3⟩
          · left; exact hlt
          · right
            subst h1; subst h2; subst h3
            exact ⟨rfl, rfl⟩
        · rw [fhStep_mkTag_some hsb hne hnd _ _ _ _ _ _ hle]
          by_cases hgt : n' > n''
          · rw [if_pos hgt]
            right
            refine ⟨_, n', rfl, ?_⟩
            rcases hlt with hlt | ⟨rfl, h1, h2, h3⟩
            · left; exact hlt
            · right
              subst h1; subst h2; subst h3
              exact ⟨rfl, rfl⟩
          · rw [if_neg hgt]
            right
            exact ⟨v'', n'', rfl, hgg⟩
  have hGood₁ : (l₁.foldl (fhStep sb) none = none ∨
      ∃ v' n', l₁.foldl (fhStep sb) none = some (v', n') ∧
        (n' < n ∨ (n' = n ∧ v' = target))) := by
    refine foldl_fhStep_inv sb
      (fun best => best = none ∨ ∃ v' n', best = some (v', n') ∧
        (n' < n ∨ (n' = n ∧ v' = target))) l₁ ?_ none (Or.inl rfl)
    intro best t ht hP
    exact hGoodStep best t (List.mem_append.mpr (Or.inl ht)) hP
  have hDone : fhStep sb (l₁.foldl (fhStep sb) none) (mkBranchTag maj mnr pat sb n) =
      some (target, n) := by
    rcases hGood₁ with hnil | ⟨v'', n'', heq, hgg⟩
    · rw [hnil, fhStep_mkTag_none hsb hne hnd _ _ _ _ hn]
    · rw [heq, fhStep_mkTag_some hsb hne hnd _ _ _ _ _ _ hn]
      rcases hgg with hlt | ⟨rfl, rfl⟩
      · rw [if_pos hlt]
      · rw [if_neg (by omega)]
  have hDoneStep : ∀ best t, t ∈ l₂ → best = some (target, n) →
      fhStep sb best t = some (target, n) := by
    intro best t ht hb
    subst hb
    rcases hok t (List.mem_append.mpr (Or.inr (List.mem_cons_of_mem _ ht)))
      with hnm | ⟨maj', mnr', pat', n', rfl, hlt⟩
    · rw [fhStep_nomatch hnm]
    · rcases hlt with hbig | hlt
      · rw [fhStep_mkTag_big _ maj' mnr' pat' n' (by omega)]
      · have hle : n' ≤ maxInt64 := by
          rcases hlt with h | ⟨rfl, _, _, _⟩
          · omega
          · exact hn
        rw [fhStep_mkTag_some hsb hne hnd _ _ _ _ _ _ hle]
        have hng : ¬ n' > n := by
          rcases hlt with hlt | ⟨rfl, _⟩
          · omega
          · omega
        rw [if_neg hng]
  show (l₁ ++ mkBranchTag maj mnr pat sb n :: l₂).foldl (fhStep sb) none = some (target, n)
  rw [List.foldl_append, List.foldl_cons]
  exact foldl_fhStep_inv sb (fun best => best = some (target, n)) l₂ hDoneStep _ hDone

/-! ### Equivalence of the four sequential replacements with one pass

The four placeholders contain `'{'` only in their first two positions and no
decimal digits, so occurrences of distinct placeholders never overlap, and
text inserted by an earlier replacement (decimal digits) can neither contain
nor help form a later placeholder.  These facts drive the induction. -/

theorem isPrefixOf_get {pat l : List Char} (h : pat.isPrefixOf l = true) :
    ∀ j, j < pat.length → l.get? j = pat.get? j := by
  intro j hj
  have hl := isPrefixOf_eq_append h
  rw [hl, List.get?_append]
  exact hj

theorem not_isPrefixOf_of_get {pat l : List Char} {j : Nat} (hj : j < pat.length)
    (h : ¬ l.get? j = pat.get? j) : pat.isPrefixOf l = false := by
  cases hp : pat.isPrefixOf l with
  | false => rfl
  | true => exact absurd (isPrefixOf_get hp j hj) h

/-- Position `i` inside `a` cannot start an occurrence of `pat`, whatever
follows `a`: some index of `pat` disagrees with `a` before `a` ends. -/
def noFake (pat a : List Char) : Prop :=
  ∀ i, i < a.length → ∃ j, j < pat.length ∧ i + j < a.length ∧
    ¬ (a.get? (i + j) = pat.get? j)

instance (pat a : List Char) : Decidable (noFake pat a) := by
  unfold noFake
  infer_instance

theorem replaceAll_copy {pat rep : List Char} {a : List Char} {b : List Char}
    (h : ∀ i, i < a.length → pat.isPrefixOf ((a ++ b).drop i) = false) :
    replaceAll pat rep (a ++ b) = a ++ replaceAll pat rep b := by
  induction a with
  | nil => simp
  | cons c a ih =>
      have h0 := h 0 (by simp)
      rw [List.cons_append, List.drop_zero] at h0
      rw [List.cons_append, replaceAll_cons, if_neg (by rw [h0]; simp)]
      rw [List.cons_append]
      congr 1
      refine ih (fun i hi => ?_)
      have hi' := h (i + 1) (by simp; omega)
      rw [List.cons_append] at hi'
      simpa using hi'

theorem replaceAll_copy_noFake {pat rep a : List Char} (h : noFake pat a)
    (b : List Char) : replaceAll pat rep (a ++ b) = a ++ replaceAll pat rep b := by
  apply replaceAll_copy
  intro i hi
  obtain ⟨j, hj, hij, hne⟩ := h i hi
  apply not_isPrefixOf_of_get hj
  rw [List.get?_drop, List.get?_append hij]
  exact hne

theorem noFake_digits {pat : List Char} (hp : pat.get? 0 = some '{')
    {a : List Char} (ha : ∀ c ∈ a, isDigitChar c = true) : noFake pat a := by
  intro i hi
  refine ⟨0, ?_, ?_, ?_⟩
  · cases pat with
    | nil => simp at hp
    | cons x p => simp
  · omega
  · rw [Nat.add_zero, hp]
    have hg : a.get? i = some (a.get ⟨i, hi⟩) := List.get?_eq_get hi
    rw [hg]
    intro hcontra
    have hd : isDigitChar (a.get ⟨i, hi⟩) = true :=
      ha _ (a.get_mem i hi)
    have heq : a.get ⟨i, hi⟩ = '{' := by
      injection hcontra
    rw [heq] at hd
    exact absurd hd (by decide)

theorem replaceAll_head {pat rep s : List Char} (hne : pat ≠ [])
    (h : pat.isPrefixOf s = true) :
    replaceAll pat rep s = rep ++ replaceAll pat rep (s.drop pat.length) := by
  match pat, hne with
  | c :: pat', _ =>
      have hs := isPrefixOf_eq_append h
      calc replaceAll (c :: pat') rep s
          = replaceAll (c :: pat') rep
              (c :: (pat' ++ s.drop (c :: pat').length)) := by
            rw [← List.cons_append, ← hs]
        _ = rep ++ replaceAll (c :: pat') rep
              ((pat' ++ s.drop (c :: pat').length).drop ((c :: pat').length - 1)) := by
            rw [replaceAll_cons, if_pos (by rw [← List.cons_append, ← hs]; exact h)]
        _ = rep ++ replaceAll (c :: pat') rep (s.drop (c :: pat').length) := by
            rw [List.length_cons, Nat.add_sub_cancel]
            rw [show pat'.length = pat'.length from rfl, List.drop_left]

theorem prefix_through_replaceAll {pat rep : List Char} (hrep : rep ≠ []) :
    ∀ (s p : List Char), (∀ c ∈ rep, c ∉ p) →
      p.isPrefixOf (replaceAll pat rep s) = true → p.isPrefixOf s = true := by
  intro s
  induction s with
  | nil =>
      intro p _ h
      rw [replaceAll_nil] at h
      exact h
  | cons c s ih =>
      intro p hdisj h
      rw [replaceAll_cons] at h
      by_cases hp : pat.isPrefixOf (c :: s) = true
      · rw [if_pos hp] at h
        match p, rep, hrep with
        | [], _, _ => rfl
        | d :: p', e :: rep', _ =>
            rw [List.cons_append] at h
            simp only [List.isPrefixOf, Bool.and_eq_true, beq_iff_eq] at h
            obtain ⟨hde, _⟩ := h
            subst hde
            exact absurd (List.mem_cons_self d p')
              (hdisj d (List.mem_cons_self d rep'))
      · rw [if_neg hp] at h
        match p with
        | [] => rfl
        | d :: p' =>
            simp only [List.isPrefixOf, Bool.and_eq_true, beq_iff_eq] at h ⊢
            exact ⟨h.1, ih p' (fun x hx hmem =>
              hdisj x hx (List.mem_cons_of_mem d hmem)) h.2⟩

theorem cons_not_prefix_through {ph pat rep : List Char} {c : Char} {s : List Char}
    (hrep : rep ≠ []) (hdisj : ∀ x ∈ rep, x ∉ ph.drop 1)
    (h : ph.isPrefixOf (c :: s) = false) :
    ph.isPrefixOf (c :: replaceAll pat rep s) = false := by
  cases hq : ph.isPrefixOf (c :: replaceAll pat rep s) with
  | false => rfl
  | true =>
      exfalso
      match ph, hdisj, h, hq with
      | [], _, h, hq => simp [List.isPrefixOf] at h
      | p₀ :: ph', hdisj, h, hq =>
          simp only [List.isPrefixOf, Bool.and_eq_true, beq_iff_eq] at hq
          have hph' : ph'.isPrefixOf s = true :=
            prefix_through_replaceAll hrep s ph' (by simpa using hdisj) hq.2
          have htrue : (p₀ :: ph').isPrefixOf (c :: s) = true := by
            simp [List.isPrefixOf, hq.1, hph']
          rw [htrue] at h
          exact Bool.noConfusion h

theorem digits_not_mem {rep ph' : List Char}
    (hrep : ∀ c ∈ rep, isDigitChar c = true)
    (hph : ∀ c ∈ ph', isDigitChar c = false) : ∀ x ∈ rep, x ∉ ph' := by
  intro x hx hmem
  have h1 := hrep x hx
  have h2 := hph x hmem
  rw [h1] at h2
  exact absurd h2 (by decide)

theorem formatTag_step_major {c : Char} {s : List Char} (v : SemVer)
    (hM : phMajor.isPrefixOf (c :: s) = true) :
    formatTag (c :: s) v =
      natChars v.major ++ formatTag ((c :: s).drop phMajor.length) v := by
  unfold formatTag
  rw [replaceAll_head (by decide) hM,
    replaceAll_copy_noFake (noFake_digits (by decide) (natChars_all_digits v.major)),
    replaceAll_copy_noFake (noFake_digits (by decide) (natChars_all_digits v.major)),
    replaceAll_copy_noFake (noFake_digits (by decide) (natChars_all_digits v.major))]

theorem formatTag_step_minor {c : Char} {s : List Char} (v : SemVer)
    (hMi : phMinor.isPrefixOf (c :: s) = true) :
    formatTag (c :: s) v =
      natChars v.minor ++ formatTag ((c :: s).drop phMinor.length) v := by
  have hsplit := isPrefixOf_eq_append hMi
  unfold formatTag
  rw [hsplit, replaceAll_copy_noFake (show noFake phMajor phMinor by decide),
    replaceAll_head (by decide) (isPrefixOf_append_self phMinor _), List.drop_left,
    List.drop_left,
    replaceAll_copy_noFake (noFake_digits (by decide) (natChars_all_digits v.minor)),
    replaceAll_copy_noFake (noFake_digits (by decide) (natChars_all_digits v.minor))]

theorem formatTag_step_patch {c : Char} {s : List Char} (v : SemVer)
    (hP : phPatch.isPrefixOf (c :: s) = true) :
    formatTag (c :: s) v =
      natChars v.patch ++ formatTag ((c :: s).drop phPatch.length) v := by
  have hsplit := isPrefixOf_eq_append hP
  unfold formatTag
  rw [hsplit, replaceAll_copy_noFake (show noFake phMajor phPatch by decide),
    replaceAll_copy_noFake (show noFake phMinor phPatch by decide),
    replaceAll_head (by decide) (isPrefixOf_append_self phPatch _), List.drop_left,
    List.drop_left,
    replaceAll_copy_noFake (noFake_digits (by decide) (natChars_all_digits v.patch))]

theorem formatTag_step_pre {c : Char} {s : List Char} (v : SemVer)
    (hPre : phPre.isPrefixOf (c :: s) = true) :
    formatTag (c :: s) v =
      preReplacement v ++ formatTag ((c :: s).drop phPre.length) v := by
  have hsplit := isPrefixOf_eq_append hPre
  unfold formatTag
  rw [hsplit, replaceAll_copy_noFake (show noFake phMajor phPre by decide),
    replaceAll_copy_noFake (show noFake phMinor phPre by decide),
    replaceAll_copy_noFake (show noFake phPatch phPre by decide),
    replaceAll_head (by decide) (isPrefixOf_append_self phPre _), List.drop_left,
    List.drop_left]

theorem formatTag_step_copy {c : Char} {s : List Char} (v : SemVer)
    (hM : phMajor.isPrefixOf (c :: s) = false)
    (hMi : phMinor.isPrefixOf (c :: s) = false)
    (hP : phPatch.isPrefixOf (c :: s) = false)
    (hPre : phPre.isPrefixOf (c :: s) = false) :
    formatTag (c :: s) v = c :: formatTag s v := by
  have hdmaj := natChars_all_digits v.major
  have hdmin := natChars_all_digits v.minor
  have hdpat := natChars_all_digits v.patch
  have hMi1 : phMinor.isPrefixOf (c :: replaceAll phMajor (natChars v.major) s) = false :=
    cons_not_prefix_through (natChars_ne_nil _)
      (digits_not_mem hdmaj (by decide)) hMi
  have hP1 : phPatch.isPrefixOf (c :: replaceAll phMajor (natChars v.major) s) = false :=
    cons_not_prefix_through (natChars_ne_nil _)
      (digits_not_mem hdmaj (by decide)) hP
  have hP2 : phPatch.isPrefixOf (c :: replaceAll phMinor (natChars v.minor)
      (replaceAll phMajor (natChars v.major) s)) = false :=
    cons_not_prefix_through (natChars_ne_nil _)
      (digits_not_mem hdmin (by decide)) hP1
  have hPre1 : phPre.isPrefixOf (c :: replaceAll phMajor (natChars v.major) s) = false :=
    cons_not_prefix_through (natChars_ne_nil _)
      (digits_not_mem hdmaj (by decide)) hPre
  have hPre2 : phPre.isPrefixOf (c :: replaceAll phMinor (natChars v.minor)
      (replaceAll phMajor (natChars v.major) s)) = false :=
    cons_not_prefix_through (natChars_ne_nil _)
      (digits_not_mem hdmin (by decide)) hPre1
  have hPre3 : phPre.isPrefixOf (c :: replaceAll phPatch (natChars v.patch)
      (replaceAll phMinor (natChars v.minor)
        (replaceAll phMajor (natChars v.major) s))) = false :=
    cons_not_prefix_through (natChars_ne_nil _)
      (digits_not_mem hdpat (by decide)) hPre2
  unfold formatTag
  rw [replaceAll_cons, if_neg (by rw [hM]; simp),
    replaceAll_cons, if_neg (by rw [hMi1]; simp),
    replaceAll_cons, if_neg (by rw [hP2]; simp),
    replaceAll_cons, if_neg (by rw [hPre3]; simp)]

/-- The sequential four-replacement formatter agrees with the single-pass
substitution semantics on every template and version. -/
theorem formatTag_eq_specFormatTag (v : SemVer) :
    ∀ t : List Char, formatTag t v = specFormatTag t v := by
  have main : ∀ N : Nat, ∀ t : List Char, t.length ≤ N →
      formatTag t v = specFormatTag t v := by
    intro N
    induction N with
    | zero =>
        intro t ht
        have : t = [] := List.length_eq_zero.mp (Nat.le_zero.mp ht)
        subst this
        rfl
    | succ N ih =>
        intro t ht
        match t with
        | [] => rfl
        | c :: s =>
            have hlen : s.length ≤ N := by
              have := ht
              simp only [List.length_cons] at this
              omega
            have hdroplen : ∀ k, (s.drop k).length ≤ N := fun k =>
              le_trans (by simpa using List.length_drop_le k s) hlen
            by_cases hM : phMajor.isPrefixOf (c :: s) = true
            · rw [formatTag_step_major v hM, specFormatTag_cons, if_pos hM,
                show (c :: s).drop phMajor.length = s.drop (phMajor.length - 1) from rfl,
                ih _ (hdroplen _)]
            · have hM' : phMajor.isPrefixOf (c :: s) = false := by
                cases h : phMajor.isPrefixOf (c :: s)
                · rfl
                · exact absurd h hM
              by_cases hMi : phMinor.isPrefixOf (c :: s) = true
              · rw [formatTag_step_minor v hMi, specFormatTag_cons, if_neg hM,
                  if_pos hMi,
                  show (c :: s).drop phMinor.length = s.drop (phMinor.length - 1) from rfl,
                  ih _ (hdroplen _)]
              · have hMi' : phMinor.isPrefixOf (c :: s) = false := by
                  cases h : phMinor.isPrefixOf (c :: s)
                  · rfl
                  · exact absurd h hMi
                by_cases hP : phPatch.isPrefixOf (c :: s) = true
                · rw [formatTag_step_patch v hP, specFormatTag_cons, if_neg hM,
                    if_neg hMi, if_pos hP,
                    show (c :: s).drop phPatch.length = s.drop (phPatch.length - 1)
                      from rfl,
                    ih _ (hdroplen _)]
                · have hP' : phPatch.isPrefixOf (c :: s) = false := by
                    cases h : phPatch.isPrefixOf (c :: s)
                    · rfl
                    · exact absurd h hP
                  by_cases hPre : phPre.isPrefixOf (c :: s) = true
                  · rw [formatTag_step_pre v hPre, specFormatTag_cons, if_neg hM,
                      if_neg hMi, if_neg hP, if_pos hPre,
                      show (c :: s).drop phPre.length = s.drop (phPre.length - 1)
                        from rfl,
                      ih _ (hdroplen _)]
                  · have hPre' : phPre.isPrefixOf (c :: s) = false := by
                      cases h : phPre.isPrefixOf (c :: s)
                      · rfl
                      · exact absurd h hPre
                    rw [formatTag_step_copy v hM' hMi' hP' hPre', specFormatTag_cons,
                      if_neg hM, if_neg hMi, if_neg hP, if_neg hPre, ih s hlen]
  exact fun t => main t.length t le_rfl

/-! ### Per-commit changelog entries, by case -/

theorem entries_skip {msg : List Char}
    (h : (shouldSkipCI msg || (chars "Merge ").isPrefixOf msg) = true) :
    bcOf msg = none ∧ fsOf msg = none ∧ bfOf msg = none ∧ ocOf msg = none := by
  unfold bcOf fsOf bfOf ocOf
  rw [if_pos h, if_pos h, if_pos h, if_pos h]
  exact ⟨rfl, rfl, rfl, rfl⟩

theorem entries_unrec {msg : List Char}
    (h : (shouldSkipCI msg || (chars "Merge ").isPrefixOf msg) = false)
    (hp : parseCommit msg = none) :
    bcOf msg = none ∧ fsOf msg = none ∧ bfOf msg = none ∧
      ocOf msg = some (firstLineOf msg) := by
  unfold bcOf fsOf bfOf ocOf
  rw [if_neg (by rw [h]; simp), if_neg (by rw [h]; simp), if_neg (by rw [h]; simp),
    if_neg (by rw [h]; simp), hp]
  exact ⟨rfl, rfl, rfl, rfl⟩

theorem entries_breaking {msg : List Char} {r : CommitMatch}
    (h : (shouldSkipCI msg || (chars "Merge ").isPrefixOf msg) = false)
    (hp : parseCommit msg = some r)
    (hbrk : (r.bang || occursIn breakingMarker msg) = true) :
    bcOf msg = some (breakingEntry msg r.subject) ∧ fsOf msg = none ∧
      bfOf msg = none ∧ ocOf msg = none := by
  unfold bcOf fsOf bfOf ocOf
  rw [if_neg (by rw [h]; simp), if_neg (by rw [h]; simp), if_neg (by rw [h]; simp),
    if_neg (by rw [h]; simp), hp]
  simp [hbrk]

theorem entries_feat {msg : List Char} {r : CommitMatch}
    (h : (shouldSkipCI msg || (chars "Merge ").isPrefixOf msg) = false)
    (hp : parseCommit msg = some r)
    (hbrk : (r.bang || occursIn breakingMarker msg) = false)
    (hft : r.ctype = chars "feat") :
    bcOf msg = none ∧ fsOf msg = some (chars "- **feat:** " ++ r.subject) ∧
      bfOf msg = none ∧ ocOf msg = none := by
  unfold bcOf fsOf bfOf ocOf
  rw [if_neg (by rw [h]; simp), if_neg (by rw [h]; simp), if_neg (by rw [h]; simp),
    if_neg (by rw [h]; simp), hp]
  simp [hbrk, hft]

theorem entries_fix {msg : List Char} {r : CommitMatch}
    (h : (shouldSkipCI msg || (chars "Merge ").isPrefixOf msg) = false)
    (hp : parseCommit msg = some r)
    (hbrk : (r.bang || occursIn breakingMarker msg) = false)
    (hfx : r.ctype = chars "fix") :
    bcOf msg = none ∧ fsOf msg = none ∧
      bfOf msg = some (chars "- **fix:** " ++ r.subject) ∧ ocOf msg = none := by
  unfold bcOf fsOf bfOf ocOf
  rw [if_neg (by rw [h]; simp), if_neg (by rw [h]; simp), if_neg (by rw [h]; simp),
    if_neg (by rw [h]; simp), hp]
  have hd1 : ¬ (chars "fix" = chars "feat") := by decide
  simp [hbrk, hfx, hd1]

theorem entries_other {msg : List Char} {r : CommitMatch}
    (h : (shouldSkipCI msg || (chars "Merge ").isPrefixOf msg) = false)
    (hp : parseCommit msg = some r)
    (hbrk : (r.bang || occursIn breakingMarker msg) = false)
    (hft : ¬ r.ctype = chars "feat") (hfx : ¬ r.ctype = chars "fix")
    (hot : (r.ctype ≠ chars "docs" && r.ctype ≠ chars "style" &&
            r.ctype ≠ chars "test" && r.ctype ≠ chars "chore") = true) :
    bcOf msg = none ∧ fsOf msg = none ∧ bfOf msg = none ∧
      ocOf msg = some (chars "- **" ++ r.ctype ++ chars ":** " ++ r.subject) := by
  unfold bcOf fsOf bfOf ocOf
  rw [if_neg (by rw [h]; simp), if_neg (by rw [h]; simp), if_neg (by rw [h]; simp),
    if_neg (by rw [h]; simp), hp]
  simp only [hot]
  simp [hbrk, hft, hfx]

theorem entries_dropped {msg : List Char} {r : CommitMatch}
    (h : (shouldSkipCI msg || (chars "Merge ").isPrefixOf msg) = false)
    (hp : parseCommit msg = some r)
    (hbrk : (r.bang || occursIn breakingMarker msg) = false)
    (hot : (r.ctype ≠ chars "docs" && r.ctype ≠ chars "style" &&
            r.ctype ≠ chars "test" && r.ctype ≠ chars "chore") = false)
    (hft : ¬ r.ctype = chars "feat") (hfx : ¬ r.ctype = chars "fix") :
    bcOf msg = none ∧ fsOf msg = none ∧ bfOf msg = none ∧ ocOf msg = none := by
  unfold bcOf fsOf bfOf ocOf
  rw [if_neg (by rw [h]; simp), if_neg (by rw [h]; simp), if_neg (by rw [h]; simp),
    if_neg (by rw [h]; simp), hp]
  simp only [hot]
  simp [hbrk, hft, hfx]

theorem categorize_insert (l₁ l₂ : List (List Char)) (msg : List Char) :
    categorize (l₁ ++ msg :: l₂) =
      ⟨(categorize l₁).breakingChanges ++ (bcOf msg).toList ++
         (categorize l₂).breakingChanges,
       (categorize l₁).features ++ (fsOf msg).toList ++ (categorize l₂).features,
       (categorize l₁).bugFixes ++ (bfOf msg).toList ++ (categorize l₂).bugFixes,
       (categorize l₁).otherChanges ++ (ocOf msg).toList ++
         (categorize l₂).otherChanges⟩ := by
  rw [categorize_eq, categorize_eq, categorize_eq]
  simp [List.filterMap_append, List.filterMap_cons]
  cases bcOf msg <;> cases fsOf msg <;> cases bfOf msg <;> cases ocOf msg <;> simp

theorem categorize_append (l₁ l₂ : List (List Char)) :
    categorize (l₁ ++ l₂) =
      ⟨(categorize l₁).breakingChanges ++ (categorize l₂).breakingChanges,
       (categorize l₁).features ++ (categorize l₂).features,
       (categorize l₁).bugFixes ++ (categorize l₂).bugFixes,
       (categorize l₁).otherChanges ++ (categorize l₂).otherChanges⟩ := by
  rw [categorize_eq, categorize_eq, categorize_eq]
  simp [List.filterMap_append]

/-! ### Unfolding `calculateNewVersion` by regime -/

theorem calc_release (cur : SemVer) (bt : String) (branch : List Char)
    (tags : List (List Char)) (lr : SemVer) :
    calculateNewVersion cur bt branch false tags lr = verString (releaseBump bt cur) := by
  unfold calculateNewVersion
  rw [if_pos (by decide)]

theorem calc_pre_none {cur : SemVer} {bt : String} {branch : List Char}
    {tags : List (List Char)} {lr : SemVer}
    (h : findHighestBranchPre (sanitizeBranch branch) tags = none) :
    calculateNewVersion cur bt branch true tags lr =
      verString (setPre lr (sanitizeBranch branch ++ chars ".0")) := by
  simp only [calculateNewVersion]
  rw [if_neg (by decide), h]

theorem calc_pre_some {cur : SemVer} {bt : String} {branch : List Char}
    {tags : List (List Char)} {lr : SemVer} {v : SemVer} {n : Nat}
    (h : findHighestBranchPre (sanitizeBranch branch) tags = some (v, n)) :
    calculateNewVersion cur bt branch true tags lr =
      verString (setPre
        (if bt = "major" then incMajor v
         else if bt = "minor" then incMinor v
         else if bt = "patch" then incPatch v
         else ⟨v.major, v.minor, v.patch, []⟩)
        (sanitizeBranch branch ++ '.' :: intChars (toInt64 (n + 1)))) := by
  simp only [calculateNewVersion]
  rw [if_neg (by decide), h]

/-- Below `math.MaxInt64` the Go `int` successor is the exact successor and
prints as its decimal digits. -/
theorem intChars_toInt64_small {n : Nat} (h : n < maxInt64) :
    intChars (toInt64 (n + 1)) = natChars (n + 1) := by
  have hm : maxInt64 = 9223372036854775807 := rfl
  have h2 : (n + 1) % 18446744073709551616 = n + 1 :=
    Nat.mod_eq_of_lt (by omega)
  have h3 : n + 1 < 9223372036854775808 := by omega
  unfold toInt64 intChars
  rw [h2, if_pos h3]
  rw [if_neg (by exact Int.not_lt.mpr (Int.natCast_nonneg _))]
  rw [Int.toNat_natCast]

theorem releaseBump_default {bt : String} (h1 : bt ≠ "major") (h2 : bt ≠ "minor")
    (v : SemVer) : releaseBump bt v = incPatch v := by
  unfold releaseBump
  rw [if_neg h1, if_neg h2]

theorem msgRank_some {msg : List Char} {r : CommitMatch}
    (hp : parseCommit (goTrimSpace msg) = some r) :
    msgRank msg =
      (if (r.bang || occursIn breakingMarker (goTrimSpace msg)) = true then 3
       else if r.ctype = chars "feat" then 2
       else if r.ctype = chars "fix" then 1 else 0) := by
  unfold msgRank
  rw [hp]

/-! ### Claims -/

/-- Claim C1 (corrected): `determineBumpType` trims each message before
matching it against the grammar, so the breaking commit that forces `major`
is one whose trimmed form is recognized and breaking (by the `!` group or a
`BREAKING CHANGE:` marker); such a commit anywhere in the list makes the
result `major` regardless of all other messages. -/
theorem C1_major_precedence (msgs : List (List Char)) (msg : List Char)
    (r : CommitMatch) (hmem : msg ∈ msgs)
    (hp : parseCommit (goTrimSpace msg) = some r)
    (hbrk : r.bang = true ∨ occursIn breakingMarker (goTrimSpace msg) = true) :
    determineBumpType msgs = "major" := by
  rw [determineBumpType_eq_rank]
  have h3 : msgRank msg = 3 := by
    have hb : (r.bang || occursIn breakingMarker (goTrimSpace msg)) = true := by
      rcases hbrk with h | h <;> simp [h]
    rw [msgRank_some hp, if_pos hb]
  exact rankToBump_ge3 (h3 ▸ le_listRank_of_mem hmem)

/-- Witness for C1: a one-element list with a breaking feat yields major. -/
theorem C1_major_precedence_witness :
    determineBumpType [chars "docs: d", chars "feat(api)!: drop v1"] = "major" :=
  C1_major_precedence _ (chars "feat(api)!: drop v1")
    ⟨chars "feat", some (chars "api"), true, chars "drop v1"⟩
    (by simp) (by rfl) (Or.inl rfl)

/-- Counterexample for C1 as stated: `"feat!: "` (trailing blank) is matched
by the commit pattern and carries the `!` breaking marker, yet
`determineBumpType` trims the message first, the trimmed `"feat!:"` no longer
matches, and the scan returns `"none"` instead of `"major"`. -/
theorem C1_raw_recognized_cex :
    parseCommit (chars "feat!: ") = some ⟨chars "feat", none, true, []⟩ ∧
    determineBumpType [chars "feat!: "] = "none" := by
  exact ⟨by rfl, by rfl⟩

/-- Claim C3 (code bug): a commit whose `BREAKING CHANGE:` marker sits in the
body below the subject line contains a line feed, the anchored pattern
rejects the whole message, and neither the bump scan nor the changelog
categoriser ever treats it as breaking: the bump is `"none"` and the first
line lands in Other Changes. -/
theorem C3_body_marker_ignored :
    occursIn breakingMarker (chars "feat: x\nBREAKING CHANGE: y") = true ∧
    determineBumpType [chars "feat: x\nBREAKING CHANGE: y"] = "none" ∧
    categorize [chars "feat: x\nBREAKING CHANGE: y"] =
      ⟨[], [], [], [chars "feat: x"]⟩ := by
  exact ⟨by rfl, by rfl, by rfl⟩

/-- Claim C6 (corrected): the bump decision is invariant under permutation of
the commit list; inserting any number of merge commits or messages whose
trimmed form fails the grammar never changes it; and a list of a (non
breaking) feat and fix yields minor in either order. -/
theorem C6_order_independence :
    (∀ l₁ l₂ : List (List Char), l₁.Perm l₂ →
       determineBumpType l₁ = determineBumpType l₂)
    ∧ (∀ l₁ l₂ ms : List (List Char),
        (∀ m ∈ ms, (chars "Merge ").isPrefixOf m = true ∨
          parseCommit (goTrimSpace m) = none) →
        determineBumpType (l₁ ++ ms ++ l₂) = determineBumpType (l₁ ++ l₂))
    ∧ (∀ msgs : List (List Char),
        (∀ m ∈ msgs, ∀ r : CommitMatch, parseCommit (goTrimSpace m) = some r →
          r.bang = false ∧ occursIn breakingMarker (goTrimSpace m) = false) →
        (∃ m ∈ msgs, ∃ r : CommitMatch, parseCommit (goTrimSpace m) = some r ∧
          r.bang = false ∧ occursIn breakingMarker (goTrimSpace m) = false ∧
          r.ctype = chars "feat") →
        determineBumpType msgs = "minor")
    ∧ determineBumpType [chars "feat: a", chars "fix: b"] = "minor"
    ∧ determineBumpType [chars "fix: b", chars "feat: a"] = "minor" := by
  refine ⟨?_, ?_, ?_, by rfl, by rfl⟩
  · intro l₁ l₂ hperm
    rw [determineBumpType_eq_rank, determineBumpType_eq_rank, listRank_perm hperm]
  · intro l₁ l₂ ms hms
    rw [determineBumpType_eq_rank, determineBumpType_eq_rank, listRank_append,
      listRank_append, listRank_append]
    have hz : listRank ms = 0 := by
      have hle : ∀ m ∈ ms, msgRank m ≤ 0 := by
        intro m hm
        have : parseCommit (goTrimSpace m) = none := by
          rcases hms m hm with h | h
          · exact goTrimSpace_merge_unparsable h
          · exact h
        rw [msgRank_eq_zero_of_unparsable this]
      have := listRank_le_of_all_le hle
      omega
    rw [hz]
    congr 1
    omega
  · intro msgs hnb ⟨m, hm, r, hp, hb, hoc, hft⟩
    rw [determineBumpType_eq_rank]
    have h2 : msgRank m = 2 := by
      rw [msgRank_some hp, if_neg (by rw [hb, hoc]; simp), if_pos hft]
    have hup : listRank msgs ≤ 2 := by
      have hle : ∀ x ∈ msgs, msgRank x ≤ 2 := by
        intro x hx
        cases hpx : parseCommit (goTrimSpace x) with
        | none =>
            rw [msgRank_eq_zero_of_unparsable hpx]
            omega
        | some rx =>
            obtain ⟨hb', ho'⟩ := hnb x hx rx hpx
            rw [msgRank_some hpx, if_neg (by rw [hb', ho']; simp)]
            split
            · omega
            · split <;> omega
      have := listRank_le_of_all_le hle
      omega
    have hlo : 2 ≤ listRank msgs := h2 ▸ le_listRank_of_mem hm
    have : listRank msgs = 2 := le_antisymm hup hlo
    rw [this]
    rfl

/-- Witness for C6: permutation invariance at a concrete pair, insertion of a
merge and an invalid message, and the general feat rule at a concrete list. -/
theorem C6_order_independence_witness :
    determineBumpType [chars "fix: b", chars "feat: a"] =
      determineBumpType [chars "feat: a", chars "fix: b"] ∧
    determineBumpType
      [chars "feat: a", chars "Merge branch x", chars "not conventional",
        chars "fix: b"] = determineBumpType [chars "feat: a", chars "fix: b"] ∧
    determineBumpType [chars "feat: a"] = "minor" := by
  refine ⟨?_, ?_, ?_⟩
  · exact C6_order_independence.1 _ _
      (List.Perm.swap (chars "feat: a") (chars "fix: b") [])
  · exact C6_order_independence.2.1 [chars "feat: a"]
      [chars "fix: b"] [chars "Merge branch x", chars "not conventional"]
      (by
        intro m hm
        rcases List.mem_cons.mp hm with rfl | hm
        · left; rfl
        · rcases List.mem_cons.mp hm with rfl | hm
          · right; rfl
          · simp at hm)
  · refine C6_order_independence.2.2.1 [chars "feat: a"] ?_ ?_
    · intro m hm r hr
      rw [List.mem_singleton] at hm
      subst hm
      have hval : parseCommit (goTrimSpace (chars "feat: a")) =
          some ⟨chars "feat", none, false, chars "a"⟩ := by rfl
      rw [hval] at hr
      injection hr with hr
      subst hr
      exact ⟨rfl, rfl⟩
    · exact ⟨chars "feat: a", List.mem_singleton.mpr rfl,
        ⟨chars "feat", none, false, chars "a"⟩, by rfl, rfl, rfl, rfl⟩

/-- Counterexample for C6 as stated: `"  feat: x"` does not match the grammar
(the anchored pattern fails on the leading blanks), yet inserting it into the
empty list changes the bump result from `"none"` to `"minor"`, because the
scan trims the message before matching. -/
theorem C6_insertion_cex :
    parseCommit (chars "  feat: x") = none ∧
    determineBumpType [] = "none" ∧
    determineBumpType [chars "  feat: x"] = "minor" := by
  exact ⟨by rfl, by rfl, by rfl⟩

/-- Claim C10 (corrected): a message with a line feed never matches the
anchored pattern, so validation fails for it; the bump scan skips it whenever
a line feed survives trimming; the changelog categoriser treats any
non-skipped, non-merge message with a line feed as unrecognized; and a
`BREAKING CHANGE:` marker that occurs only below the first line never marks a
commit as breaking, in either consumer. -/
theorem C10_newline_never_matches :
    (∀ msg : List Char, '\n' ∈ msg →
      (chars "Merge ").isPrefixOf msg = false → validateCommitMessage msg = false)
    ∧ (∀ (l₁ l₂ : List (List Char)) (msg : List Char), '\n' ∈ goTrimSpace msg →
        determineBumpType (l₁ ++ msg :: l₂) = determineBumpType (l₁ ++ l₂))
    ∧ (∀ (l₁ l₂ : List (List Char)) (msg : List Char), '\n' ∈ msg →
        shouldSkipCI msg = false → (chars "Merge ").isPrefixOf msg = false →
        categorize (l₁ ++ msg :: l₂) =
          ⟨(categorize (l₁ ++ l₂)).breakingChanges, (categorize (l₁ ++ l₂)).features,
           (categorize (l₁ ++ l₂)).bugFixes,
           (categorize l₁).otherChanges ++ firstLineOf msg ::
             (categorize l₂).otherChanges⟩)
    ∧ (∀ (l₁ l₂ : List (List Char)) (msg : List Char),
        occursIn breakingMarker (goTrimSpace msg) = true →
        occursIn breakingMarker (firstLineOf (goTrimSpace msg)) = false →
        determineBumpType (l₁ ++ msg :: l₂) = determineBumpType (l₁ ++ l₂))
    ∧ (∀ msg : List Char, occursIn breakingMarker msg = true →
        occursIn breakingMarker (firstLineOf msg) = false → bcOf msg = none) := by
  have hnlparse : ∀ m : List Char, '\n' ∈ m → parseCommit m = none := by
    intro m hm
    cases hp : parseCommit m with
    | none => rfl
    | some r => exact absurd hm (parseCommit_no_newline hp)
  have hbelow : ∀ m : List Char, occursIn breakingMarker m = true →
      occursIn breakingMarker (firstLineOf m) = false → '\n' ∈ m := by
    intro m h1 h2
    by_contra hnl
    have : firstLineOf m = m := List.takeWhile_eq_self_iff.mpr (by
      intro c hc
      simp only [decide_eq_true_iff]
      intro hcc
      exact hnl (hcc ▸ hc))
    rw [this, h1] at h2
    exact Bool.noConfusion h2
  refine ⟨?_, ?_, ?_, ?_, ?_⟩
  · intro msg hnl hmg
    unfold validateCommitMessage
    rw [hmg, hnlparse msg hnl]
    rfl
  · intro l₁ l₂ msg hnl
    rw [show l₁ ++ msg :: l₂ = l₁ ++ [msg] ++ l₂ from by simp,
      determineBumpType_eq_rank, determineBumpType_eq_rank, listRank_append,
      listRank_append, listRank_append]
    have hz : listRank [msg] = 0 := by
      rw [listRank_cons, msgRank_eq_zero_of_unparsable (hnlparse _ hnl)]
      rfl
    rw [hz]
    congr 1
    omega
  · intro l₁ l₂ msg hnl hski hmg
    rw [categorize_insert, categorize_append]
    obtain ⟨hbc, hfs, hbf, hoc⟩ := entries_unrec (by rw [hski, hmg]; rfl)
      (hnlparse msg hnl)
    rw [hbc, hfs, hbf, hoc]
    simp
  · intro l₁ l₂ msg h1 h2
    have hnl : '\n' ∈ goTrimSpace msg := hbelow _ h1 h2
    rw [show l₁ ++ msg :: l₂ = l₁ ++ [msg] ++ l₂ from by simp,
      determineBumpType_eq_rank, determineBumpType_eq_rank, listRank_append,
      listRank_append, listRank_append]
    have hz : listRank [msg] = 0 := by
      rw [listRank_cons, msgRank_eq_zero_of_unparsable (hnlparse _ hnl)]
      rfl
    rw [hz]
    congr 1
    omega
  · intro msg h1 h2
    have hnl : '\n' ∈ msg := hbelow _ h1 h2
    unfold bcOf
    by_cases hs : (shouldSkipCI msg || (chars "Merge ").isPrefixOf msg) = true
    · rw [if_pos hs]
    · rw [if_neg hs, hnlparse msg hnl]

/-- Witness for C10: the amended behaviours at a concrete body-marker
message. -/
theorem C10_newline_never_matches_witness :
    validateCommitMessage (chars "feat: x\nBREAKING CHANGE: y") = false ∧
    determineBumpType [chars "fix: a", chars "feat: x\nBREAKING CHANGE: y"] =
      determineBumpType [chars "fix: a"] ∧
    bcOf (chars "feat: x\nBREAKING CHANGE: y") = none := by
  refine ⟨?_, ?_, ?_⟩
  · exact C10_newline_never_matches.1 _ (by decide) (by rfl)
  · exact C10_newline_never_matches.2.1 [chars "fix: a"] [] _ (by decide)
  · exact C10_newline_never_matches.2.2.2.2 _ (by rfl) (by rfl)

/-- Counterexample for C10 as stated: `"feat: x\n"` contains a line feed and
is not a merge commit, yet `determineBumpType` does not skip it — trimming
removes the trailing line feed and the message counts as a feat. -/
theorem C10_trailing_newline_cex :
    '\n' ∈ chars "feat: x\n" ∧
    (chars "Merge ").isPrefixOf (chars "feat: x\n") = false ∧
    determineBumpType [chars "feat: x\n"] = "minor" := by
  exact ⟨by decide, by rfl, by rfl⟩

/-- Claim C5 (spec-modelled semver arithmetic): in the release regime a major
bump increments major and zeroes minor and patch, a minor bump increments
minor and zeroes patch, and any other bump type increments patch only; the
result never carries a prerelease. -/
theorem C5_release_arithmetic :
    (∀ (cur : SemVer) (branch : List Char) (tags : List (List Char)) (lr : SemVer),
       calculateNewVersion cur "major" branch false tags lr =
         verString ⟨cur.major + 1, 0, 0, []⟩)
    ∧ (∀ (cur : SemVer) (branch : List Char) (tags : List (List Char)) (lr : SemVer),
        calculateNewVersion cur "minor" branch false tags lr =
          verString ⟨cur.major, cur.minor + 1, 0, []⟩)
    ∧ (∀ (bt : String) (cur : SemVer) (branch : List Char) (tags : List (List Char))
         (lr : SemVer), bt ≠ "major" → bt ≠ "minor" →
        calculateNewVersion cur bt branch false tags lr =
          verString ⟨cur.major, cur.minor, cur.patch + 1, []⟩)
    ∧ calculateNewVersion ⟨1, 2, 3, []⟩ "major" (chars "main") false [] ⟨0, 0, 0, []⟩ =
        chars "2.0.0"
    ∧ calculateNewVersion ⟨1, 2, 3, []⟩ "minor" (chars "main") false [] ⟨0, 0, 0, []⟩ =
        chars "1.3.0"
    ∧ calculateNewVersion ⟨1, 2, 3, []⟩ "patch" (chars "main") false [] ⟨0, 0, 0, []⟩ =
        chars "1.2.4" := by
  refine ⟨?_, ?_, ?_, by rfl, by rfl, by rfl⟩
  · intro cur branch tags lr
    rw [calc_release]
    rfl
  · intro cur branch tags lr
    rw [calc_release]
    rfl
  · intro bt cur branch tags lr h1 h2
    rw [calc_release, releaseBump_default h1 h2]
    rfl

/-- Witness for C5: the default arm at the concrete bump type `"patch"`. -/
theorem C5_release_arithmetic_witness :
    calculateNewVersion ⟨7, 8, 9, []⟩ "patch" (chars "b") false [] ⟨0, 0, 0, []⟩ =
      chars "7.8.10" := by
  have h := C5_release_arithmetic.2.2.1 "patch" ⟨7, 8, 9, []⟩ (chars "b") []
    ⟨0, 0, 0, []⟩ (by decide) (by decide)
  rw [h]
  rfl

/-- Claim C4 (spec-modelled semver values): in the pre-release regime with no
tag matching the branch pattern, the bump type is ignored and the result is
the latest release version with prerelease `<sanitizedBranch>.0` attached. -/
theorem C4_first_prerelease :
    (∀ (cur : SemVer) (bt : String) (branch : List Char) (tags : List (List Char))
       (lr : SemVer),
       (∀ t ∈ tags, branchTagNum (sanitizeBranch branch) t = none) →
       calculateNewVersion cur bt branch true tags lr =
         verString (setPre lr (sanitizeBranch branch ++ chars ".0")))
    ∧ (∀ (cur : SemVer) (bt : String),
        calculateNewVersion cur bt (chars "feature/X") true [] ⟨1, 4, 0, []⟩ =
          chars "1.4.0-feature-X.0") := by
  constructor
  · intro cur bt branch tags lr h
    exact calc_pre_none (findHighest_none h)
  · intro cur bt
    rw [calc_pre_none (findHighest_none (by intro t ht; simp at ht))]
    rfl

/-- Witness for C4: a tag set with no branch pre-release tag for
`feature/X`. -/
theorem C4_first_prerelease_witness :
    calculateNewVersion ⟨9, 9, 9, []⟩ "major" (chars "feature/X") true
      [chars "v1.0.0", chars "v2.0.0-other-branch.3"] ⟨1, 4, 0, []⟩ =
      chars "1.4.0-feature-X.0" := by
  have h := C4_first_prerelease.1 ⟨9, 9, 9, []⟩ "major" (chars "feature/X")
    [chars "v1.0.0", chars "v2.0.0-other-branch.3"] ⟨1, 4, 0, []⟩ (by decide)
  rw [h]
  rfl

/-- Claim C2 (spec-modelled semver arithmetic): in the pre-release regime,
tags of the branch pre-release form participate in the scan only when their
counter is accepted by `strconv.Atoi` (at most `math.MaxInt64`; larger
counters are skipped).  The scan takes the participating tag with the
highest counter `n`, bumps its base version exactly as the release regime
would (its prerelease field playing no role), and attaches
`<sanitizedBranch>.<n+1>` — the exact successor whenever
`n < math.MaxInt64`, and the wrapped Go `int` successor
`-9223372036854775808` at `n = math.MaxInt64`. -/
theorem C2_prerelease_increment :
    (∀ (cur : SemVer) (bt : String) (branch : List Char) (tags : List (List Char))
       (lr : SemVer) (maj mnr pat n : Nat),
       branch ≠ [] →
       n < maxInt64 →
       mkBranchTag maj mnr pat (sanitizeBranch branch) n ∈ tags →
       (∀ t ∈ tags, branchTagNum (sanitizeBranch branch) t = none ∨
         ∃ maj' mnr' pat' n',
           t = mkBranchTag maj' mnr' pat' (sanitizeBranch branch) n' ∧
           (maxInt64 < n' ∨ n' < n ∨
             (n' = n ∧ maj' = maj ∧ mnr' = mnr ∧ pat' = pat))) →
       (bt = "major" ∨ bt = "minor" ∨ bt = "patch") →
       calculateNewVersion cur bt branch true tags lr =
         verString (setPre (releaseBump bt ⟨maj, mnr, pat, []⟩)
           (sanitizeBranch branch ++ '.' :: natChars (n + 1))))
    ∧ (∀ (cur : SemVer) (bt : String) (branch : List Char) (tags : List (List Char))
       (lr : SemVer) (maj mnr pat : Nat),
       branch ≠ [] →
       mkBranchTag maj mnr pat (sanitizeBranch branch) maxInt64 ∈ tags →
       (∀ t ∈ tags, branchTagNum (sanitizeBranch branch) t = none ∨
         ∃ maj' mnr' pat' n',
           t = mkBranchTag maj' mnr' pat' (sanitizeBranch branch) n' ∧
           (maxInt64 < n' ∨ n' < maxInt64 ∨
             (n' = maxInt64 ∧ maj' = maj ∧ mnr' = mnr ∧ pat' = pat))) →
       (bt = "major" ∨ bt = "minor" ∨ bt = "patch") →
       calculateNewVersion cur bt branch true tags lr =
         verString (setPre (releaseBump bt ⟨maj, mnr, pat, []⟩)
           (sanitizeBranch branch ++ '.' :: chars "-9223372036854775808")))
    ∧ (∀ (cur lr : SemVer),
        calculateNewVersion cur "minor" (chars "feature/X") true
          [chars "v1.4.0-feature-X.0"] lr = chars "1.5.0-feature-X.1")
    ∧ (∀ (cur lr : SemVer),
        calculateNewVersion cur "patch" (chars "feature/X") true
          [chars "v1.4.0-feature-X.0"] lr = chars "1.4.1-feature-X.1") := by
  refine ⟨?_, ?_, ?_, ?_⟩
  · intro cur bt branch tags lr maj mnr pat n hbr hlt hmem hok hbt
    have hsb := sanitizeBranch_chars branch
    have hnd := sanitizeBranch_no_dot branch
    have hne : sanitizeBranch branch ≠ [] := by
      intro h
      exact hbr (List.map_eq_nil.mp h)
    have hfind := findHighest_max hsb hne hnd (Nat.le_of_lt hlt) hmem hok
    rw [calc_pre_some hfind, intChars_toInt64_small hlt]
    rcases hbt with rfl | rfl | rfl <;> rfl
  · intro cur bt branch tags lr maj mnr pat hbr hmem hok hbt
    have hsb := sanitizeBranch_chars branch
    have hnd := sanitizeBranch_no_dot branch
    have hne : sanitizeBranch branch ≠ [] := by
      intro h
      exact hbr (List.map_eq_nil.mp h)
    have hfind := findHighest_max hsb hne hnd (Nat.le_refl maxInt64) hmem hok
    rw [calc_pre_some hfind]
    rcases hbt with rfl | rfl | rfl <;> rfl
  · intro cur lr
    rfl
  · intro cur lr
    rfl

/-- Witness for C2: the single branch tag `v1.4.0-feature-X.0` with a major
bump, exercising the exact-successor conjunct. -/
theorem C2_prerelease_increment_witness :
    calculateNewVersion ⟨0, 0, 0, []⟩ "major" (chars "feature/X") true
      [chars "v1.4.0-feature-X.0"] ⟨0, 0, 0, []⟩ = chars "2.0.0-feature-X.1" := by
  have h := C2_prerelease_increment.1 ⟨0, 0, 0, []⟩ "major" (chars "feature/X")
    [chars "v1.4.0-feature-X.0"] ⟨0, 0, 0, []⟩ 1 4 0 0 (by decide) (by decide)
    (by rw [List.mem_singleton]; rfl)
    (by
      intro t ht
      rw [List.mem_singleton] at ht
      subst ht
      right
      exact ⟨1, 4, 0, 0, by rfl, Or.inr (Or.inr ⟨rfl, rfl, rfl, rfl⟩)⟩)
    (Or.inl rfl)
  rw [h]
  rfl

/-- Counterexample to C2 as stated: `v1.4.0-feature-X.9999999999999999999`
matches the branch pre-release pattern (captured counter
9999999999999999999), yet the counter exceeds `math.MaxInt64`, so
`strconv.Atoi` returns a range error, the scan skips the tag, and
`calculateNewVersion` takes the first-pre-release path instead of producing
the claimed `1.5.0-feature-X.10000000000000000000`. -/
theorem C2_big_counter_cex :
    branchTagNum (sanitizeBranch (chars "feature/X"))
        (mkBranchTag 1 4 0 (sanitizeBranch (chars "feature/X")) 9999999999999999999) =
      some 9999999999999999999
    ∧ maxInt64 < 9999999999999999999
    ∧ calculateNewVersion ⟨0, 0, 0, []⟩ "minor" (chars "feature/X") true
        [mkBranchTag 1 4 0 (sanitizeBranch (chars "feature/X")) 9999999999999999999]
        ⟨1, 4, 0, []⟩ = chars "1.4.0-feature-X.0"
    ∧ chars "1.4.0-feature-X.0" ≠ chars "1.5.0-feature-X.10000000000000000000" := by
  exact ⟨branchTagNum_mkTag 1 4 0 (sanitizeBranch (chars "feature/X")) 9999999999999999999,
    by decide, rfl, by decide⟩

/-- Claim C7: the sequential placeholder replacement of `main` substitutes
every occurrence of the four placeholders — `\x7b\x7b.Prerelease\x7d\x7d`
becoming empty or `-` plus the prerelease — and leaves all other text,
including unrecognized placeholders, verbatim: it agrees with the single-pass
substitution semantics on every template and version. -/
theorem C7_tag_formatting :
    (∀ (template : List Char) (v : SemVer),
       formatTag template v = specFormatTag template v)
    ∧ formatTag
        (chars "v\x7b\x7b.Major\x7d\x7d.\x7b\x7b.Minor\x7d\x7d.\x7b\x7b.Patch\x7d\x7d\x7b\x7b.Prerelease\x7d\x7d")
        ⟨2, 0, 0, []⟩ = chars "v2.0.0"
    ∧ formatTag
        (chars "v\x7b\x7b.Major\x7d\x7d.\x7b\x7b.Minor\x7d\x7d.\x7b\x7b.Patch\x7d\x7d\x7b\x7b.Prerelease\x7d\x7d")
        ⟨2, 0, 0, chars "rc.1"⟩ = chars "v2.0.0-rc.1"
    ∧ formatTag (chars "release-\x7b\x7b.Major\x7d\x7d keeps \x7b\x7b.Unknown\x7d\x7d")
        ⟨3, 1, 4, []⟩ = chars "release-3 keeps \x7b\x7b.Unknown\x7d\x7d" := by
  exact ⟨fun t v => formatTag_eq_specFormatTag v t, by rfl, by rfl, by rfl⟩

/-- Claim C8: changelog categorisation per commit — skip-CI and merge commits
vanish; unrecognized commits contribute their first line to Other Changes;
breaking commits go only to BREAKING CHANGES; non-breaking feat and fix go to
Features and Bug Fixes; other recognized types except docs, style, test and
chore go to Other Changes; docs, style, test and chore are dropped. -/
theorem C8_changelog_categorisation :
    (∀ (l₁ l₂ : List (List Char)) (msg : List Char),
       shouldSkipCI msg = true ∨ (chars "Merge ").isPrefixOf msg = true →
       categorize (l₁ ++ msg :: l₂) = categorize (l₁ ++ l₂))
    ∧ (∀ (l₁ l₂ : List (List Char)) (msg : List Char),
        shouldSkipCI msg = false → (chars "Merge ").isPrefixOf msg = false →
        parseCommit msg = none →
        categorize (l₁ ++ msg :: l₂) =
          ⟨(categorize (l₁ ++ l₂)).breakingChanges, (categorize (l₁ ++ l₂)).features,
           (categorize (l₁ ++ l₂)).bugFixes,
           (categorize l₁).otherChanges ++ firstLineOf msg ::
             (categorize l₂).otherChanges⟩)
    ∧ (∀ (l₁ l₂ : List (List Char)) (msg : List Char) (r : CommitMatch),
        shouldSkipCI msg = false → (chars "Merge ").isPrefixOf msg = false →
        parseCommit msg = some r →
        (r.bang = true ∨ occursIn breakingMarker msg = true) →
        categorize (l₁ ++ msg :: l₂) =
          ⟨(categorize l₁).breakingChanges ++ breakingEntry msg r.subject ::
             (categorize l₂).breakingChanges,
           (categorize (l₁ ++ l₂)).features, (categorize (l₁ ++ l₂)).bugFixes,
           (categorize (l₁ ++ l₂)).otherChanges⟩)
    ∧ (∀ (l₁ l₂ : List (List Char)) (msg : List Char) (r : CommitMatch),
        shouldSkipCI msg = false → (chars "Merge ").isPrefixOf msg = false →
        parseCommit msg = some r →
        r.bang = false → occursIn breakingMarker msg = false →
        r.ctype = chars "feat" →
        categorize (l₁ ++ msg :: l₂) =
          ⟨(categorize (l₁ ++ l₂)).breakingChanges,
           (categorize l₁).features ++ (chars "- **feat:** " ++ r.subject) ::
             (categorize l₂).features,
           (categorize (l₁ ++ l₂)).bugFixes, (categorize (l₁ ++ l₂)).otherChanges⟩)
    ∧ (∀ (l₁ l₂ : List (List Char)) (msg : List Char) (r : CommitMatch),
        shouldSkipCI msg = false → (chars "Merge ").isPrefixOf msg = false →
        parseCommit msg = some r →
        r.bang = false → occursIn breakingMarker msg = false →
        r.ctype = chars "fix" →
        categorize (l₁ ++ msg :: l₂) =
          ⟨(categorize (l₁ ++ l₂)).breakingChanges, (categorize (l₁ ++ l₂)).features,
           (categorize l₁).bugFixes ++ (chars "- **fix:** " ++ r.subject) ::
             (categorize l₂).bugFixes,
           (categorize (l₁ ++ l₂)).otherChanges⟩)
    ∧ (∀ (l₁ l₂ : List (List Char)) (msg : List Char) (r : CommitMatch),
        shouldSkipCI msg = false → (chars "Merge ").isPrefixOf msg = false →
        parseCommit msg = some r →
        r.bang = false → occursIn breakingMarker msg = false →
        ¬ r.ctype = chars "feat" → ¬ r.ctype = chars "fix" →
        ¬ r.ctype = chars "docs" → ¬ r.ctype = chars "style" →
        ¬ r.ctype = chars "test" → ¬ r.ctype = chars "chore" →
        categorize (l₁ ++ msg :: l₂) =
          ⟨(categorize (l₁ ++ l₂)).breakingChanges, (categorize (l₁ ++ l₂)).features,
           (categorize (l₁ ++ l₂)).bugFixes,
           (categorize l₁).otherChanges ++
             (chars "- **" ++ r.ctype ++ chars ":** " ++ r.subject) ::
               (categorize l₂).otherChanges⟩)
    ∧ (∀ (l₁ l₂ : List (List Char)) (msg : List Char) (r : CommitMatch),
        shouldSkipCI msg = false → (chars "Merge ").isPrefixOf msg = false →
        parseCommit msg = some r →
        r.bang = false → occursIn breakingMarker msg = false →
        (r.ctype = chars "docs" ∨ r.ctype = chars "style" ∨
         r.ctype = chars "test" ∨ r.ctype = chars "chore") →
        categorize (l₁ ++ msg :: l₂) = categorize (l₁ ++ l₂)) := by
  refine ⟨?_, ?_, ?_, ?_, ?_, ?_, ?_⟩
  · intro l₁ l₂ msg h
    have hcond : (shouldSkipCI msg || (chars "Merge ").isPrefixOf msg) = true := by
      rcases h with h | h <;> simp [h]
    obtain ⟨h1, h2, h3, h4⟩ := entries_skip hcond
    rw [categorize_insert, categorize_append, h1, h2, h3, h4]
    simp
  · intro l₁ l₂ msg hs hm hp
    obtain ⟨h1, h2, h3, h4⟩ := entries_unrec (by rw [hs, hm]; rfl) hp
    rw [categorize_insert, categorize_append, h1, h2, h3, h4]
    simp
  · intro l₁ l₂ msg r hs hm hp hbrk
    have hb : (r.bang || occursIn breakingMarker msg) = true := by
      rcases hbrk with h | h <;> simp [h]
    obtain ⟨h1, h2, h3, h4⟩ := entries_breaking (by rw [hs, hm]; rfl) hp hb
    rw [categorize_insert, categorize_append, h1, h2, h3, h4]
    simp
  · intro l₁ l₂ msg r hs hm hp hb ho hft
    obtain ⟨h1, h2, h3, h4⟩ :=
      entries_feat (by rw [hs, hm]; rfl) hp (by rw [hb, ho]; rfl) hft
    rw [categorize_insert, categorize_append, h1, h2, h3, h4]
    simp
  · intro l₁ l₂ msg r hs hm hp hb ho hfx
    obtain ⟨h1, h2, h3, h4⟩ :=
      entries_fix (by rw [hs, hm]; rfl) hp (by rw [hb, ho]; rfl) hfx
    rw [categorize_insert, categorize_append, h1, h2, h3, h4]
    simp
  · intro l₁ l₂ msg r hs hm hp hb ho hft hfx hd1 hd2 hd3 hd4
    have hot : (r.ctype ≠ chars "docs" && r.ctype ≠ chars "style" &&
        r.ctype ≠ chars "test" && r.ctype ≠ chars "chore") = true := by
      simp [hd1, hd2, hd3, hd4]
    obtain ⟨h1, h2, h3, h4⟩ :=
      entries_other (by rw [hs, hm]; rfl) hp (by rw [hb, ho]; rfl) hft hfx hot
    rw [categorize_insert, categorize_append, h1, h2, h3, h4]
    simp
  · intro l₁ l₂ msg r hs hm hp hb ho hd
    have hft : ¬ r.ctype = chars "feat" := by
      rcases hd with h | h | h | h <;> rw [h] <;> decide
    have hfx : ¬ r.ctype = chars "fix" := by
      rcases hd with h | h | h | h <;> rw [h] <;> decide
    have hot : (r.ctype ≠ chars "docs" && r.ctype ≠ chars "style" &&
        r.ctype ≠ chars "test" && r.ctype ≠ chars "chore") = false := by
      rcases hd with h | h | h | h <;> simp [h]
    obtain ⟨h1, h2, h3, h4⟩ :=
      entries_dropped (by rw [hs, hm]; rfl) hp (by rw [hb, ho]; rfl) hot hft hfx
    rw [categorize_insert, categorize_append, h1, h2, h3, h4]
    simp

/-- Witness for C8: each categorisation rule at a concrete commit. -/
theorem C8_changelog_categorisation_witness :
    categorize [chars "chore: x [skip-ci]"] = ⟨[], [], [], []⟩ ∧
    categorize [chars "oops"] = ⟨[], [], [], [chars "oops"]⟩ ∧
    categorize [chars "feat!: drop"] =
      ⟨[chars "- **BREAKING CHANGE:** drop"], [], [], []⟩ ∧
    categorize [chars "feat: add"] = ⟨[], [chars "- **feat:** add"], [], []⟩ ∧
    categorize [chars "fix: bug"] = ⟨[], [], [chars "- **fix:** bug"], []⟩ ∧
    categorize [chars "perf: speed"] = ⟨[], [], [], [chars "- **perf:** speed"]⟩ ∧
    categorize [chars "docs: readme"] = ⟨[], [], [], []⟩ := by
  refine ⟨?_, ?_, ?_, ?_, ?_, ?_, ?_⟩
  · have h := C8_changelog_categorisation.1 [] [] (chars "chore: x [skip-ci]")
      (Or.inl (by rfl))
    simpa using h
  · have h := C8_changelog_categorisation.2.1 [] [] (chars "oops")
      (by rfl) (by rfl) (by rfl)
    simpa using h
  · have h := C8_changelog_categorisation.2.2.1 [] [] (chars "feat!: drop")
      ⟨chars "feat", none, true, chars "drop"⟩ (by rfl) (by rfl) (by rfl)
      (Or.inl rfl)
    simpa using h
  · have h := C8_changelog_categorisation.2.2.2.1 [] [] (chars "feat: add")
      ⟨chars "feat", none, false, chars "add"⟩ (by rfl) (by rfl) (by rfl) rfl
      (by rfl) rfl
    simpa using h
  · have h := C8_changelog_categorisation.2.2.2.2.1 [] [] (chars "fix: bug")
      ⟨chars "fix", none, false, chars "bug"⟩ (by rfl) (by rfl) (by rfl) rfl
      (by rfl) rfl
    simpa using h
  · have h := C8_changelog_categorisation.2.2.2.2.2.1 [] [] (chars "perf: speed")
      ⟨chars "perf", none, false, chars "speed"⟩ (by rfl) (by rfl) (by rfl) rfl
      (by rfl) (by decide) (by decide) (by decide) (by decide) (by decide)
      (by decide)
    simpa using h
  · have h := C8_changelog_categorisation.2.2.2.2.2.2 [] [] (chars "docs: readme")
      ⟨chars "docs", none, false, chars "readme"⟩ (by rfl) (by rfl) (by rfl) rfl
      (by rfl) (Or.inl rfl)
    simpa using h

/-- Claim C9: the rendered fragment lists its sections in the fixed order
BREAKING CHANGES, Features, Bug Fixes, Other Changes, omitting every section
with no entry; with an empty filtered commit list the output is the bare
header, empty of content. -/
theorem C9_section_order :
    (∀ (tag date : List Char) (msgs : List (List Char)),
       renderNotes tag date msgs =
         chars "## " ++ tag ++ chars " (" ++ date ++ chars ")\n\n" ++
         (if (categorize msgs).breakingChanges = [] then []
          else chars "### BREAKING CHANGES" ++ chars "\n\n" ++
            (((categorize msgs).breakingChanges.map (fun e => e ++ ['\n'])).flatten)
              ++ ['\n']) ++
         (if (categorize msgs).features = [] then []
          else chars "### Features" ++ chars "\n\n" ++
            (((categorize msgs).features.map (fun e => e ++ ['\n'])).flatten)
              ++ ['\n']) ++
         (if (categorize msgs).bugFixes = [] then []
          else chars "### Bug Fixes" ++ chars "\n\n" ++
            (((categorize msgs).bugFixes.map (fun e => e ++ ['\n'])).flatten)
              ++ ['\n']) ++
         (if (categorize msgs).otherChanges = [] then []
          else chars "### Other Changes" ++ chars "\n\n" ++
            (((categorize msgs).otherChanges.map (fun e => e ++ ['\n'])).flatten)
              ++ ['\n']))
    ∧ (∀ (tag date : List Char) (msgs : List (List Char)),
        (∀ m ∈ msgs, shouldSkipCI m = true ∨ (chars "Merge ").isPrefixOf m = true) →
        renderNotes tag date msgs =
          chars "## " ++ tag ++ chars " (" ++ date ++ chars ")\n\n")
    ∧ renderNotes (chars "v2.0.0") (chars "2026-10-11")
        [chars "feat!: drop", chars "feat: add", chars "fix: bug"] =
        chars "## v2.0.0 (2026-10-11)\n\n### BREAKING CHANGES\n\n- **BREAKING CHANGE:** drop\n\n### Features\n\n- **feat:** add\n\n### Bug Fixes\n\n- **fix:** bug\n\n" := by
  have hsec : ∀ (title : List Char) (entries : List (List Char)),
      renderSection title entries =
        (if entries = [] then []
         else title ++ chars "\n\n" ++
           ((entries.map (fun e => e ++ ['\n'])).flatten) ++ ['\n']) := by
    intro title entries
    cases entries with
    | nil => rfl
    | cons e es =>
        rw [renderSection, if_neg (by simp), if_neg (show ¬ (e :: es = []) from by simp)]
  refine ⟨?_, ?_, by rfl⟩
  · intro tag date msgs
    rw [renderNotes, hsec, hsec, hsec, hsec]
  · intro tag date msgs hall
    have hskipall : ∀ m ∈ msgs,
        (shouldSkipCI m || (chars "Merge ").isPrefixOf m) = true := by
      intro m hm
      rcases hall m hm with h | h <;> simp [h]
    have hempty : categorize msgs = ⟨[], [], [], []⟩ := by
      rw [categorize_eq]
      have h1 : msgs.filterMap bcOf = [] :=
        List.filterMap_eq_nil.mpr (fun m hm => (entries_skip (hskipall m hm)).1)
      have h2 : msgs.filterMap fsOf = [] :=
        List.filterMap_eq_nil.mpr (fun m hm => (entries_skip (hskipall m hm)).2.1)
      have h3 : msgs.filterMap bfOf = [] :=
        List.filterMap_eq_nil.mpr (fun m hm => (entries_skip (hskipall m hm)).2.2.1)
      have h4 : msgs.filterMap ocOf = [] :=
        List.filterMap_eq_nil.mpr (fun m hm => (entries_skip (hskipall m hm)).2.2.2)
      rw [h1, h2, h3, h4]
    rw [renderNotes, hempty]
    simp [renderSection]

/-- Witness for C9: an all-merge commit list renders as the bare header. -/
theorem C9_section_order_witness :
    renderNotes (chars "v1.0.0") (chars "2026-10-11")
      [chars "Merge branch main", chars "chore: sync [ci skip]"] =
      chars "## v1.0.0 (2026-10-11)\n\n" := by
  have h := C9_section_order.2.1 (chars "v1.0.0") (chars "2026-10-11")
    [chars "Merge branch main", chars "chore: sync [ci skip]"]
    (by
      intro m hm
      rcases List.mem_cons.mp hm with rfl | hm
      · right; rfl
      · rcases List.mem_cons.mp hm with rfl | hm
        · left; rfl
        · simp at hm)
  rw [h]
  rfl

end SemVerGo
